import Mathlib

/-!
# Verification of the SaaS-DMS ingestion pipeline against its specification

Shallow embedding of the core algorithms of the `dms` package
(`dms/tasks.py`, `dms/encryption.py`, `dms/managers.py`, `dms/models.py`)
as executable Lean definitions, together with theorems settling the
specification's claims about them.

External collaborators (the PDF renderer, the Data-Matrix decoder, the
`cryptography` AEAD primitive, the regular-expression engine, the SHA-256
hash and the database driver) are modelled as parameters or as the decoded
data they would produce; everything written in the repository itself is
translated statement by statement.
-/

namespace DMS

/-! ## PDF segmentation (`split_pdf_by_datamatrix`, `dms/tasks.py` 460-603)

A page of the scanned PDF is represented by the subject id its Data-Matrix
code decodes to: `some e` when a non-empty employee id was decoded on the
page, `none` when no code (or only an empty id) was found.  `page_emp_id`
in the source is exactly this value. -/

/-- A contiguous run of pages attributed to one subject.  Mirrors the
`{'employee_id': ..., 'pages': [...]}` dictionaries of the source. -/
structure Segment where
  employee_id : Option String
  pages : List Nat
deriving Repr, DecidableEq

/-- The page loop of `split_pdf_by_datamatrix` (tasks.py 496-531): `cur` is
`current_segment`, `acc` the `segments` list built so far, `i` the index of
the next page.  A page whose decoded id is non-empty and differs from the
current segment's id closes the current segment (if it has pages) and opens
a new one; otherwise the page is appended and a decoded id (necessarily
equal to the current one) is carried into `employee_id`. -/
def segLoop (cur : Segment) (acc : List Segment) (i : Nat) :
    List (Option String) → Segment × List Segment
  | [] => (cur, acc)
  | p :: rest =>
    match p with
    | some e =>
      if some e ≠ cur.employee_id then
        if cur.pages ≠ [] then
          segLoop ⟨some e, [i]⟩ (acc ++ [cur]) (i + 1) rest
        else
          segLoop ⟨some e, [i]⟩ acc (i + 1) rest
      else
        segLoop ⟨some e, cur.pages ++ [i]⟩ acc (i + 1) rest
    | none => segLoop ⟨cur.employee_id, cur.pages ++ [i]⟩ acc (i + 1) rest

/-- Lines 533-534 of tasks.py: after the loop the final `current_segment`
is appended when it has pages. -/
def segFinish (st : Segment × List Segment) : List Segment :=
  if st.1.pages ≠ [] then st.2 ++ [st.1] else st.2

/-- Lines 489-534 of tasks.py: run the page loop from the empty initial
segment. -/
def buildSegments (pids : List (Option String)) : List Segment :=
  segFinish (segLoop ⟨none, []⟩ [] 0 pids)

/-- Lines 543-545 of tasks.py: a leading segment without employee id is
merged into the following segment when one exists. -/
def mergeLeading : List Segment → List Segment
  | s0 :: s1 :: rest =>
    if s0.employee_id = none then
      { s1 with pages := s0.pages ++ s1.pages } :: rest
    else s0 :: s1 :: rest
  | l => l

/-- `split_pdf_by_datamatrix` (tasks.py 460-603) at the level of decoded
per-page subject ids: empty result for a PDF of at most one page; build the
contiguous segments; abandon when at most one segment carries an employee
id; merge a leading id-less segment into its successor; emit the remaining
segments (the per-segment PDF writing is I/O and keeps `pages` verbatim). -/
def split_pdf_by_datamatrix (pids : List (Option String)) : List Segment :=
  if pids.length ≤ 1 then []
  else if ((buildSegments pids).filter (fun s => s.employee_id ≠ none)).length ≤ 1 then []
  else mergeLeading (buildSegments pids)

/-! Specification-side description of the grouping (spec §4.4): pages are
grouped into contiguous runs; a new run starts exactly when a page's
decoded subject id is non-empty and differs from the carried-forward id of
the current run; a page with no decoded id is appended without changing the
run's subject. -/

/-- Spec-side grouping, written as a direct (accumulator-free) recursion:
`cur` is the open run with its carried-forward subject. -/
def specGroup (cur : Segment) (i : Nat) : List (Option String) → List Segment
  | [] => if cur.pages = [] then [] else [cur]
  | p :: rest =>
    match p with
    | some e =>
      if some e ≠ cur.employee_id then
        (if cur.pages = [] then [] else [cur]) ++ specGroup ⟨some e, [i]⟩ (i + 1) rest
      else
        specGroup ⟨some e, cur.pages ++ [i]⟩ (i + 1) rest
    | none => specGroup ⟨cur.employee_id, cur.pages ++ [i]⟩ (i + 1) rest

/-- Spec-side segmentation (spec §4.4, written from the spec's words):
empty for a one-page document; group into runs; merge a leading run
without subject id into the following run when another run exists; abandon
when fewer than two runs carry a non-empty subject id. -/
def segmentSpec (pids : List (Option String)) : List Segment :=
  if pids.length ≤ 1 then []
  else if ((mergeLeading (specGroup ⟨none, []⟩ 0 pids)).filter
      (fun s => s.employee_id ≠ none)).length < 2 then []
  else mergeLeading (specGroup ⟨none, []⟩ 0 pids)

/-- The accumulator loop and the direct recursion agree. -/
theorem segLoop_eq_specGroup (rest : List (Option String)) :
    ∀ (cur : Segment) (acc : List Segment) (i : Nat),
      segFinish (segLoop cur acc i rest) = acc ++ specGroup cur i rest := by
  induction rest with
  | nil =>
    intro cur acc i
    by_cases h : cur.pages = []
    · simp [segLoop, specGroup, segFinish, h]
    · simp [segLoop, specGroup, segFinish, h]
  | cons p rest ih =>
    intro cur acc i
    match p with
    | some e =>
      simp only [segLoop, specGroup]
      by_cases hne : some e ≠ cur.employee_id
      · rw [if_pos hne, if_pos hne]
        by_cases hp : cur.pages = []
        · rw [if_neg (by simpa using hp), if_pos hp]
          simpa using ih ⟨some e, [i]⟩ acc (i + 1)
        · rw [if_pos hp, if_neg hp]
          have h1 := ih ⟨some e, [i]⟩ (acc ++ [cur]) (i + 1)
          simpa [List.append_assoc] using h1
      · rw [if_neg hne, if_neg hne]
        exact ih ⟨some e, cur.pages ++ [i]⟩ acc (i + 1)
    | none =>
      simp only [segLoop, specGroup]
      exact ih ⟨cur.employee_id, cur.pages ++ [i]⟩ acc (i + 1)

theorem buildSegments_eq_specGroup (pids : List (Option String)) :
    buildSegments pids = specGroup ⟨none, []⟩ 0 pids := by
  have h := segLoop_eq_specGroup pids ⟨none, []⟩ [] 0
  simpa [buildSegments] using h

/-- Merging the leading run does not change how many runs carry an id. -/
theorem mergeLeading_filter_length (segments : List Segment) :
    ((mergeLeading segments).filter (fun s => s.employee_id ≠ none)).length =
    (segments.filter (fun s => s.employee_id ≠ none)).length := by
  match segments with
  | [] => rfl
  | [s0] => rfl
  | s0 :: s1 :: rest =>
    by_cases h : s0.employee_id = none
    · by_cases h1 : s1.employee_id = none
      · simp [mergeLeading, h, h1, List.filter]
      · simp [mergeLeading, h, h1, List.filter]
    · simp [mergeLeading, h, List.filter]

/-- **C1.** `split_pdf_by_datamatrix` groups pages exactly as the
specification describes: it agrees with the spec-side segmentation (runs
started exactly at pages whose non-empty decoded id differs from the
carried-forward id, id-less pages appended without changing the subject,
leading id-less run merged into its successor, abandonment for at most one
page or fewer than two runs with a subject id), and the 3-page scenario
`[PN10, none, PN20]` yields exactly the segments `([0,1], 10)` and
`([2], 20)`. -/
theorem split_pdf_matches_spec :
    (∀ pids : List (Option String), split_pdf_by_datamatrix pids = segmentSpec pids) ∧
    split_pdf_by_datamatrix [some "10", none, some "20"] =
      [⟨some "10", [0, 1]⟩, ⟨some "20", [2]⟩] := by
  constructor
  · intro pids
    unfold split_pdf_by_datamatrix segmentSpec
    by_cases hlen : pids.length ≤ 1
    · rw [if_pos hlen, if_pos hlen]
    · rw [if_neg hlen, if_neg hlen, buildSegments_eq_specGroup]
      have hcnt := mergeLeading_filter_length (specGroup ⟨none, []⟩ 0 pids)
      by_cases h2 : ((specGroup ⟨none, []⟩ 0 pids).filter
          (fun s => s.employee_id ≠ none)).length ≤ 1
      · rw [if_pos h2, if_pos (by omega)]
      · rw [if_neg h2, if_neg (by omega)]
  · decide

/-- The pages of the grouped runs, in emission order, are exactly the page
indices handed to the loop: the open run's pages followed by `i, i+1, ...`. -/
theorem specGroup_bind_pages (rest : List (Option String)) :
    ∀ (cur : Segment) (i : Nat),
      (specGroup cur i rest).flatMap (fun s => s.pages) =
        cur.pages ++ List.range' i rest.length := by
  induction rest with
  | nil =>
    intro cur i
    by_cases h : cur.pages = []
    · simp [specGroup, h]
    · simp [specGroup, h]
  | cons p rest ih =>
    intro cur i
    match p with
    | some e =>
      simp only [specGroup]
      by_cases hne : some e ≠ cur.employee_id
      · rw [if_pos hne]
        by_cases hp : cur.pages = []
        · rw [if_pos hp]
          simp [ih ⟨some e, [i]⟩ (i + 1), hp, List.range'_succ]
        · rw [if_neg hp]
          simp [ih ⟨some e, [i]⟩ (i + 1), List.range'_succ]
      · rw [if_neg hne]
        simp [ih ⟨some e, cur.pages ++ [i]⟩ (i + 1), List.range'_succ]
    | none =>
      simp only [specGroup]
      simp [ih ⟨cur.employee_id, cur.pages ++ [i]⟩ (i + 1), List.range'_succ]

/-- Merging the leading run reorders no page. -/
theorem mergeLeading_bind_pages (l : List Segment) :
    (mergeLeading l).flatMap (fun s => s.pages) = l.flatMap (fun s => s.pages) := by
  match l with
  | [] => rfl
  | [s0] => rfl
  | s0 :: s1 :: rest =>
    by_cases h : s0.employee_id = none
    · simp [mergeLeading, h]
    · simp [mergeLeading, h]

/-- A member's page list is a sublist of the concatenation of all pages. -/
theorem pages_sublist_bind (s : Segment) :
    ∀ L : List Segment, s ∈ L → s.pages.Sublist (L.flatMap (fun s => s.pages)) := by
  intro L
  induction L with
  | nil => intro h; cases h
  | cons a L ih =>
    intro h
    rcases List.mem_cons.mp h with h | h
    · subst h
      simp only [List.flatMap_cons]
      exact List.sublist_append_left s.pages (L.flatMap (fun s => s.pages))
    · have h1 : (L.flatMap (fun s => s.pages)).Sublist
          ((a :: L).flatMap (fun s => s.pages)) := by
        simp only [List.flatMap_cons]
        exact List.sublist_append_right a.pages (L.flatMap (fun s => s.pages))
      exact (ih h).trans h1

/-- With every page id either absent or equal to `sbj`, at most one run
carries an employee id. -/
theorem specGroup_single_subject (sbj : String) (rest : List (Option String)) :
    ∀ (cur : Segment) (i : Nat),
      (cur.employee_id = none ∨ cur.employee_id = some sbj) →
      (∀ p ∈ rest, p = none ∨ p = some sbj) →
      ((specGroup cur i rest).filter (fun s => s.employee_id ≠ none)).length ≤ 1 := by
  induction rest with
  | nil =>
    intro cur i _ _
    by_cases h : cur.pages = []
    · simp [specGroup, h]
    · simp only [specGroup, if_neg h]
      simpa using List.length_filter_le (fun s => decide (s.employee_id ≠ none)) [cur]
  | cons p rest ih =>
    intro cur i hcur hall
    have hp0 := hall p (List.mem_cons_self p rest)
    have hrest : ∀ q ∈ rest, q = none ∨ q = some sbj := fun q hq =>
      hall q (List.mem_cons_of_mem p hq)
    match p with
    | some e =>
      have he : e = sbj := by
        rcases hp0 with h | h
        · cases h
        · exact Option.some.inj h
      subst he
      simp only [specGroup]
      by_cases hne : some e ≠ cur.employee_id
      · rw [if_pos hne]
        have hcn : cur.employee_id = none := by
          rcases hcur with h | h
          · exact h
          · exact absurd h.symm hne
        have htail := ih ⟨some e, [i]⟩ (i + 1) (Or.inr rfl) hrest
        by_cases hp : cur.pages = []
        · rw [if_pos hp]
          simpa using htail
        · rw [if_neg hp]
          simpa [List.filter_append, List.filter, hcn] using htail
      · rw [if_neg hne]
        have hee : cur.employee_id = some e := by
          by_contra hc
          exact hne (Ne.symm hc)
        exact ih ⟨some e, cur.pages ++ [i]⟩ (i + 1) (Or.inr rfl) hrest
    | none =>
      simp only [specGroup]
      exact ih ⟨cur.employee_id, cur.pages ++ [i]⟩ (i + 1) hcur hrest

/-- **C2.** When segmentation is not abandoned, the emitted segments cover
the original pages `{0..N-1}` exactly once each and in the original order
(their concatenated page lists are literally `[0, 1, ..., N-1]`, and each
segment's pages are strictly increasing); a document whose pages all carry
a single subject id (or none) yields zero segments. -/
theorem split_pdf_partition (pids : List (Option String)) :
    (split_pdf_by_datamatrix pids ≠ [] →
      (split_pdf_by_datamatrix pids).flatMap (fun s => s.pages) = List.range pids.length ∧
      ∀ s ∈ split_pdf_by_datamatrix pids, s.pages.Pairwise (· < ·)) ∧
    (∀ sbj : String, (∀ p ∈ pids, p = none ∨ p = some sbj) →
      split_pdf_by_datamatrix pids = []) := by
  constructor
  · intro hne
    have hbind : (split_pdf_by_datamatrix pids).flatMap (fun s => s.pages) =
        List.range pids.length := by
      unfold split_pdf_by_datamatrix at hne ⊢
      by_cases hlen : pids.length ≤ 1
      · rw [if_pos hlen] at hne
        exact absurd rfl hne
      · rw [if_neg hlen] at hne ⊢
        by_cases h2 : ((buildSegments pids).filter
            (fun s => s.employee_id ≠ none)).length ≤ 1
        · rw [if_pos h2] at hne
          exact absurd rfl hne
        · rw [if_neg h2]
          rw [mergeLeading_bind_pages, buildSegments_eq_specGroup,
            specGroup_bind_pages, List.range_eq_range']
          rfl
    refine ⟨hbind, ?_⟩
    intro s hs
    have hsub : s.pages.Sublist (List.range pids.length) := by
      rw [← hbind]
      exact pages_sublist_bind s _ hs
    exact List.Pairwise.sublist hsub (List.pairwise_lt_range _)
  · intro sbj hall
    unfold split_pdf_by_datamatrix
    by_cases hlen : pids.length ≤ 1
    · rw [if_pos hlen]
    · rw [if_neg hlen]
      have h1 : ((buildSegments pids).filter
          (fun s => s.employee_id ≠ none)).length ≤ 1 := by
        rw [buildSegments_eq_specGroup]
        exact specGroup_single_subject sbj pids ⟨none, []⟩ 0 (Or.inl rfl) hall
      rw [if_pos h1]

/-- Witness for `split_pdf_partition`: the 3-page document `[a, -, b]` is
split and its segments' pages concatenate to `[0, 1, 2]`; the 3-page
document `[a, -, a]` resolves to a single subject and is not split. -/
theorem split_pdf_partition_witness :
    (split_pdf_by_datamatrix [some "a", none, some "b"]).flatMap (fun s => s.pages) =
      List.range 3 ∧
    split_pdf_by_datamatrix [some "a", none, some "a"] = [] := by
  constructor
  · exact ((split_pdf_partition [some "a", none, some "b"]).1 (by decide)).1
  · exact (split_pdf_partition [some "a", none, some "a"]).2 "a" (by decide)

/-! ## Identity resolution (`find_employee_by_id`, tasks.py 625-697, and
`TenantAwareManager.get_queryset`, managers.py 63-77)

Employees are rows with a primary id string and an optional tenant foreign
key.  A queryset is a list of rows; `filter(...).first()` is `find?`. -/

/-- A tenant row: database identity plus its `code` field. -/
structure TenantRec where
  tid : Nat
  code : String
deriving Repr, DecidableEq

/-- An employee row (`Employee.employee_id`, `Employee.tenant_id`). -/
structure Employee where
  employee_id : String
  tenant : Option Nat
deriving Repr, DecidableEq

/-- `TenantAwareManager.get_queryset` (managers.py 63-77) as seen from a
worker with no request user: the base queryset is filtered by the
thread-local current tenant when one is set. -/
def get_queryset (db : List Employee) (ctx : Option Nat) : List Employee :=
  match ctx with
  | some t => db.filter (fun e => e.tenant = some t)
  | none => db

/-- Python `str.lstrip('0')`. -/
def lstripZeros (s : String) : String :=
  String.mk (s.toList.dropWhile (fun c => c = '0'))

/-- Python `str.isdigit()` on the ASCII ids used here. -/
def isDigits (s : String) : Bool :=
  !s.isEmpty && s.toList.all Char.isDigit

/-- Python `str.zfill(8)`. -/
def zfill8 (s : String) : String :=
  if 8 ≤ s.length then s else String.mk (List.replicate (8 - s.length) '0' ++ s.toList)

/-- Python's `x or y` / early-return chaining on optionals. -/
def orElseO : Option α → Option α → Option α
  | some a, _ => some a
  | none, b => b

/-- First non-`none` entry of a list of optionals. -/
def firstSome : List (Option α) → Option α
  | [] => none
  | o :: rest => orElseO o (firstSome rest)

/-- Step (2) of `search_in_queryset` (tasks.py 648-652): the
`"{mandant_code}_{emp_id}"` composite, tried only for a truthy hint. -/
def searchStep2 (qs : List Employee) (emp_id : String) (mandant_code : Option String) :
    Option Employee :=
  match mandant_code with
  | some m => if m = "" then none
              else qs.find? (fun e => e.employee_id = m ++ "_" ++ emp_id)
  | none => none

/-- Step (3) of `search_in_queryset` (tasks.py 654-659): tenant code with
leading zeros stripped (`'1'` when that leaves nothing), composited. -/
def searchStep3 (qs : List Employee) (emp_id : String) (tenant : Option TenantRec) :
    Option Employee :=
  match tenant with
  | some t =>
    if t.code = "" then none
    else
      qs.find? (fun e => e.employee_id =
        (if lstripZeros t.code = "" then "1" else lstripZeros t.code) ++ "_" ++ emp_id)
  | none => none

/-- Step (4) of `search_in_queryset` (tasks.py 661-665): the fixed legacy
prefixes `'1'..'5'`. -/
def searchStep4 (qs : List Employee) (emp_id : String) : Option Employee :=
  firstSome ((["1", "2", "3", "4", "5"].map (fun p => p ++ "_" ++ emp_id)).map
    (fun c => qs.find? (fun e => e.employee_id = c)))

/-- Step (5) of `search_in_queryset` (tasks.py 667-673): for a purely
numeric id, leading zeros stripped, then zero-padded to 8 digits. -/
def searchStep5 (qs : List Employee) (emp_id : String) : Option Employee :=
  if isDigits emp_id then
    orElseO (qs.find? (fun e => e.employee_id = lstripZeros emp_id))
      (qs.find? (fun e => e.employee_id = zfill8 emp_id))
  else none

/-- `search_in_queryset` (tasks.py 642-675): the five steps in order, the
first hit short-circuiting. -/
def search_in_queryset (qs : List Employee) (emp_id : String)
    (mandant_code : Option String) (tenant : Option TenantRec) : Option Employee :=
  orElseO (qs.find? (fun e => e.employee_id = emp_id))
    (orElseO (searchStep2 qs emp_id mandant_code)
      (orElseO (searchStep3 qs emp_id tenant)
        (orElseO (searchStep4 qs emp_id) (searchStep5 qs emp_id))))

/-- `find_employee_by_id` (tasks.py 625-697): the whole chain is run per
scope — first the rows of the given tenant, then the tenant-less rows, then
the manager's base queryset — each scope drawn from the tenant-aware base
queryset determined by the thread-local context `ctx`. -/
def find_employee_by_id (db : List Employee) (ctx : Option Nat) (employee_id : String)
    (tenant : Option TenantRec) (mandant_code : Option String) : Option Employee :=
  if employee_id = "" then none
  else
    orElseO
      (match tenant with
       | some t => search_in_queryset ((get_queryset db ctx).filter
           (fun e => e.tenant = some t.tid)) employee_id mandant_code tenant
       | none => none)
      (orElseO
        (search_in_queryset ((get_queryset db ctx).filter (fun e => e.tenant = none))
          employee_id mandant_code tenant)
        (match tenant with
         | some _ => search_in_queryset (get_queryset db ctx) employee_id mandant_code tenant
         | none => none))

/-! Spec-side description of the resolver: an ordered list of candidate id
strings — steps (1)-(5) — searched scope by scope. -/

/-- The candidate id strings of the fallback chain, in chain order. -/
def candidateIds (emp_id : String) (mandant_code : Option String)
    (tenant : Option TenantRec) : List String :=
  [emp_id]
  ++ (match mandant_code with
      | some m => if m = "" then [] else [m ++ "_" ++ emp_id]
      | none => [])
  ++ (match tenant with
      | some t =>
        if t.code = "" then []
        else [(if lstripZeros t.code = "" then "1" else lstripZeros t.code) ++ "_" ++ emp_id]
      | none => [])
  ++ (["1", "2", "3", "4", "5"].map (fun p => p ++ "_" ++ emp_id))
  ++ (if isDigits emp_id then [lstripZeros emp_id, zfill8 emp_id] else [])

/-- Search one scope for the first candidate it contains. -/
def searchFlat (qs : List Employee) (cands : List String) : Option Employee :=
  firstSome (cands.map (fun c => qs.find? (fun e => e.employee_id = c)))

/-- Spec-side resolver, scope-major: the entire candidate chain is tried
within the tenant scope, then against tenant-less rows, then against the
base queryset. -/
def resolveScopeMajor (db : List Employee) (ctx : Option Nat) (employee_id : String)
    (tenant : Option TenantRec) (mandant_code : Option String) : Option Employee :=
  if employee_id = "" then none
  else
    firstSome
      (((match tenant with
         | some t => [(get_queryset db ctx).filter (fun e => e.tenant = some t.tid)]
         | none => [])
        ++ [(get_queryset db ctx).filter (fun e => e.tenant = none)]
        ++ (match tenant with
            | some _ => [get_queryset db ctx]
            | none => [])).map
        (fun qs => searchFlat qs (candidateIds employee_id mandant_code tenant)))

/-- The rows of the given tenant within the base queryset. -/
def tenantScopeRows (db : List Employee) (ctx : Option Nat)
    (tenant : Option TenantRec) : List Employee :=
  match tenant with
  | some t => (get_queryset db ctx).filter (fun e => e.tenant = some t.tid)
  | none => []

/-- The resolver as the claim words it, step-major: each candidate id is
tried first against the tenant scope and then retried against tenant-less
rows, before moving to the next candidate. -/
def resolveStepMajor (db : List Employee) (ctx : Option Nat) (employee_id : String)
    (tenant : Option TenantRec) (mandant_code : Option String) : Option Employee :=
  if employee_id = "" then none
  else
    firstSome ((candidateIds employee_id mandant_code tenant).map
      (fun c =>
        orElseO
          ((tenantScopeRows db ctx tenant).find? (fun e => e.employee_id = c))
          (((get_queryset db ctx).filter (fun e => e.tenant = none)).find?
            (fun e => e.employee_id = c))))

theorem orElseO_none_right (o : Option α) : orElseO o none = o := by
  cases o <;> rfl

theorem orElseO_none_left (o : Option α) : orElseO none o = o := rfl

theorem orElseO_assoc (a b c : Option α) :
    orElseO (orElseO a b) c = orElseO a (orElseO b c) := by
  cases a <;> rfl

theorem firstSome_append (l₁ l₂ : List (Option α)) :
    firstSome (l₁ ++ l₂) = orElseO (firstSome l₁) (firstSome l₂) := by
  induction l₁ with
  | nil => rfl
  | cons o l ih =>
    match o with
    | some a => rfl
    | none => simpa [firstSome, orElseO] using ih

/-- The nested early returns of `search_in_queryset` search the flat
candidate list in order. -/
theorem search_in_queryset_eq_flat (qs : List Employee) (emp_id : String)
    (mandant_code : Option String) (tenant : Option TenantRec) :
    search_in_queryset qs emp_id mandant_code tenant =
      searchFlat qs (candidateIds emp_id mandant_code tenant) := by
  unfold search_in_queryset searchFlat candidateIds
  rw [List.map_append, List.map_append, List.map_append, List.map_append]
  rw [firstSome_append, firstSome_append, firstSome_append, firstSome_append]
  have h1 : firstSome ([emp_id].map (fun c => qs.find? (fun e => e.employee_id = c))) =
      qs.find? (fun e => e.employee_id = emp_id) := by
    simp [firstSome, orElseO_none_right]
  have h2 : firstSome ((match mandant_code with
      | some m => if m = "" then [] else [m ++ "_" ++ emp_id]
      | none => ([] : List String)).map (fun c => qs.find? (fun e => e.employee_id = c))) =
      searchStep2 qs emp_id mandant_code := by
    match mandant_code with
    | none => rfl
    | some m =>
      by_cases hm : m = ""
      · simp [searchStep2, hm, firstSome]
      · simp [searchStep2, hm, firstSome, orElseO_none_right]
  have h3 : firstSome ((match tenant with
      | some t =>
        if t.code = "" then []
        else [(if lstripZeros t.code = "" then "1" else lstripZeros t.code) ++ "_" ++ emp_id]
      | none => ([] : List String)).map (fun c => qs.find? (fun e => e.employee_id = c))) =
      searchStep3 qs emp_id tenant := by
    match tenant with
    | none => rfl
    | some t =>
      by_cases ht : t.code = ""
      · simp [searchStep3, ht, firstSome]
      · simp [searchStep3, ht, firstSome, orElseO_none_right]
  have h4 : firstSome ((["1", "2", "3", "4", "5"].map (fun p => p ++ "_" ++ emp_id)).map
      (fun c => qs.find? (fun e => e.employee_id = c))) = searchStep4 qs emp_id := rfl
  have h5 : firstSome ((if isDigits emp_id then [lstripZeros emp_id, zfill8 emp_id]
      else ([] : List String)).map (fun c => qs.find? (fun e => e.employee_id = c))) =
      searchStep5 qs emp_id := by
    by_cases hd : isDigits emp_id
    · simp [searchStep5, hd, firstSome, orElseO_none_right]
    · simp [searchStep5, hd, firstSome]
  rw [h1, h2, h3, h4, h5, orElseO_assoc, orElseO_assoc, orElseO_assoc]

theorem firstSome_eq_none {l : List (Option α)} :
    firstSome l = none ↔ ∀ o ∈ l, o = none := by
  induction l with
  | nil => simp [firstSome]
  | cons o rest ih =>
    match o with
    | some a => simp [firstSome, orElseO]
    | none => simpa [firstSome, orElseO] using ih

/-- A scope yields nothing exactly when no row of it carries a candidate id. -/
theorem searchFlat_eq_none (qs : List Employee) (cands : List String) :
    searchFlat qs cands = none ↔ ∀ e ∈ qs, e.employee_id ∉ cands := by
  unfold searchFlat
  rw [firstSome_eq_none]
  constructor
  · intro h e he hc
    have hf : qs.find? (fun x => x.employee_id = e.employee_id) = none :=
      h _ (List.mem_map_of_mem _ hc)
    have hne := List.find?_eq_none.mp hf e he
    simp at hne
  · intro h o ho
    rcases List.mem_map.mp ho with ⟨c, hc, rfl⟩
    refine List.find?_eq_none.mpr (fun e he => ?_)
    simp only [decide_eq_true_eq]
    intro hec
    exact h e he (hec ▸ hc)

/-- **C3 (amended).** `find_employee_by_id` runs the whole candidate chain
(1)-(5) scope-major: within the tenant scope first, then against
tenant-less rows, then against the base queryset, the first hit
short-circuiting; with no current-tenant context and a tenant given, it
returns `none` exactly when no row carries any candidate id; and the
spec's concrete resolutions hold: raw id `"1"` with hint `"7"` finds the
employee stored as `"7_1"`, and raw id `"007"` finds one stored as `"7"`
and, failing that, one stored as `"00000007"`. -/
theorem find_employee_scope_order :
    (∀ (db : List Employee) (ctx : Option Nat) (emp_id : String)
        (tenant : Option TenantRec) (mandant_code : Option String),
      find_employee_by_id db ctx emp_id tenant mandant_code =
        resolveScopeMajor db ctx emp_id tenant mandant_code) ∧
    (∀ (db : List Employee) (emp_id : String) (t : TenantRec) (m : Option String),
      emp_id ≠ "" →
      (find_employee_by_id db none emp_id (some t) m = none ↔
        ∀ e ∈ db, e.employee_id ∉ candidateIds emp_id m (some t))) ∧
    find_employee_by_id [⟨"7_1", some 0⟩] (some 0) "1" (some ⟨0, "9"⟩) (some "7") =
      some ⟨"7_1", some 0⟩ ∧
    find_employee_by_id [⟨"7", some 0⟩] (some 0) "007" (some ⟨0, "9"⟩) none =
      some ⟨"7", some 0⟩ ∧
    find_employee_by_id [⟨"00000007", some 0⟩] (some 0) "007" (some ⟨0, "9"⟩) none =
      some ⟨"00000007", some 0⟩ := by
  have hmain : ∀ (db : List Employee) (ctx : Option Nat) (emp_id : String)
      (tenant : Option TenantRec) (mandant_code : Option String),
      find_employee_by_id db ctx emp_id tenant mandant_code =
        resolveScopeMajor db ctx emp_id tenant mandant_code := by
    intro db ctx emp_id tenant mandant_code
    unfold find_employee_by_id resolveScopeMajor
    by_cases he : emp_id = ""
    · rw [if_pos he, if_pos he]
    · rw [if_neg he, if_neg he]
      match tenant with
      | none =>
        simp [search_in_queryset_eq_flat, firstSome, orElseO_none_right, orElseO_none_left]
      | some t =>
        simp [search_in_queryset_eq_flat, firstSome, orElseO_none_right, orElseO_none_left]
  refine ⟨hmain, ?_, by decide, by decide, by decide⟩
  intro db emp_id t m he
  rw [hmain]
  unfold resolveScopeMajor
  rw [if_neg he]
  constructor
  · intro h
    have h3 := firstSome_eq_none.mp h
      (searchFlat (get_queryset db none) (candidateIds emp_id m (some t)))
      (by simp)
    exact (searchFlat_eq_none _ _).mp h3
  · intro h
    refine firstSome_eq_none.mpr ?_
    intro o ho
    rcases List.mem_map.mp ho with ⟨qs, hqs, rfl⟩
    refine (searchFlat_eq_none _ _).mpr (fun e heq => h e ?_)
    simp only [List.cons_append, List.nil_append, List.mem_cons,
      List.mem_singleton, List.not_mem_nil, or_false] at hqs
    rcases hqs with rfl | rfl | rfl
    · exact List.mem_of_mem_filter heq
    · exact List.mem_of_mem_filter heq
    · exact heq

/-- Witness for `find_employee_scope_order`: a concrete exhausted search —
no candidate of raw id `"1"` occurs in a database holding only `"x"`. -/
theorem find_employee_scope_order_witness :
    find_employee_by_id [⟨"x", none⟩] none "1" (some ⟨0, "9"⟩) none = none := by
  exact (find_employee_scope_order.2.1 [⟨"x", none⟩] "1" ⟨0, "9"⟩ none
    (by decide)).mpr (by decide)

/-- **C3 counterexample.** The claim's step-major order (each step tried in
the tenant scope, then retried tenant-less, before the next step) disagrees
with the code: with an employee `"7_1"` in the tenant and a tenant-less
employee `"1"`, the code resolves raw id `"1"` (hint `"7"`) to `"7_1"`,
while the claimed order would resolve it to the tenant-less `"1"`. -/
theorem find_employee_claim_counterexample :
    find_employee_by_id [⟨"7_1", some 0⟩, ⟨"1", none⟩] none "1"
        (some ⟨0, "9"⟩) (some "7") = some ⟨"7_1", some 0⟩ ∧
    resolveStepMajor [⟨"7_1", some 0⟩, ⟨"1", none⟩] none "1"
        (some ⟨0, "9"⟩) (some "7") = some ⟨"1", none⟩ ∧
    (⟨"7_1", some 0⟩ : Employee) ≠ ⟨"1", none⟩ := by
  refine ⟨by decide, by decide, by decide⟩

/-! ## Rule classification (`auto_classify_document`, tasks.py 86-165;
`MatchingRule`, models.py 1247-1335)

The regular-expression engine behind the `REGEX` algorithm is the Python
standard library; it enters the model as an oracle
`regex : pattern → text → caseSensitive → Bool`. -/

/-- A `MatchingRule` row (models.py 1247-1335). -/
structure MatchingRule where
  is_active : Bool
  priority : Int
  algorithm : String
  match_pattern : String
  is_case_sensitive : Bool
  assign_document_type : Option Nat
  assign_employee : Option Nat
  assign_status : String
  assign_tags : List Nat
  match_count : Nat
  last_matched_at : Option Nat
deriving Repr, DecidableEq

/-- The `Document` fields touched by classification. -/
structure Document where
  original_filename : String
  title : String
  document_type : Option Nat
  employee : Option Nat
  status : String
  tags : List Nat
deriving Repr, DecidableEq

/-- Python `str.lower()` on the ASCII rule data. -/
def pyLower (s : String) : String := String.mk (s.toList.map Char.toLower)

/-- Does `pat` start `text`? -/
def startsWithB : List Char → List Char → Bool
  | [], _ => true
  | _ :: _, [] => false
  | a :: pa, b :: tb => a = b && startsWithB pa tb

/-- Python's substring test `pat in hay` on character lists. -/
def containsSubB (pat : List Char) : List Char → Bool
  | [] => pat.isEmpty
  | b :: rest => startsWithB pat (b :: rest) || containsSubB pat rest

/-- Python `pat in hay` on strings. -/
def strContains (hay pat : String) : Bool := containsSubB pat.toList hay.toList

/-- Python `str.split()`: split on whitespace, dropping empty pieces. -/
def pySplit (s : String) : List String :=
  (s.split Char.isWhitespace).filter (fun w => w ≠ "")

/-- Positional character agreement of `zip(word, substring)`
(tasks.py 132). -/
def countPosEq (a b : List Char) : Nat :=
  ((a.zip b).filter (fun p => p.1 = p.2)).length

/-- The inner sliding-window test of the `FUZZY` algorithm
(tasks.py 130-135): some offset aligns at least 80% of the word's
characters (`matches >= len(word) * 0.8`; for word lengths in range the
float threshold coincides with the rational `4/5`). -/
def fuzzyWordHit (text word : List Char) : Bool :=
  if word.length ≤ text.length then
    (List.range (text.length - word.length + 1)).any (fun i =>
      4 * word.length ≤ 5 * countPosEq word ((text.drop i).take word.length))
  else false

/-- The per-rule match test of `auto_classify_document` (tasks.py 102-137):
lowercase text and pattern unless case-sensitive, then dispatch on the
algorithm; an unknown algorithm (in particular `NONE`) never matches.
`REGEX` consults the engine oracle on the raw text and pattern with the
case flag. -/
def ruleMatched (regex : String → String → Bool → Bool) (search_text : String)
    (r : MatchingRule) : Bool :=
  let pattern := if r.is_case_sensitive then r.match_pattern else pyLower r.match_pattern
  let text := if r.is_case_sensitive then search_text else pyLower search_text
  if r.algorithm = "EXACT" then strContains text pattern
  else if r.algorithm = "ANY" then (pySplit pattern).any (fun w => strContains text w)
  else if r.algorithm = "ALL" then (pySplit pattern).all (fun w => strContains text w)
  else if r.algorithm = "REGEX" then regex r.match_pattern search_text r.is_case_sensitive
  else if r.algorithm = "FUZZY" then
    (pySplit pattern).any (fun w => 4 ≤ w.length && fuzzyWordHit text.toList w.toList)
  else false

/-- Insertion step of a stable descending sort by `priority`: an earlier
row stays before a later row of the same priority. -/
def insertByPriority (r : MatchingRule) : List MatchingRule → List MatchingRule
  | [] => [r]
  | x :: xs => if r.priority < x.priority then x :: insertByPriority r xs else r :: x :: xs

/-- One concrete realisation of `order_by('-priority')` (tasks.py 95): a
stable descending sort of the declaration-order row list.  The SQL orders
by the single key `priority` and names no tie-break, so the relative order
of equal-priority rows is *not* guaranteed by the code; this deterministic
instance fixes ties to declaration order.  `respectsPriorityOrder` below
captures the full set of row orders the query may return;
`stableSort_respectsPriorityOrder` shows this instance is one of them, so
every property proved over all admissible orders holds of it. -/
def orderByPriorityDesc (rs : List MatchingRule) : List MatchingRule :=
  rs.foldr insertByPriority []

/-- The admissible result sequences of the classifier's rule query
`MatchingRule.objects.filter(is_active=True).order_by('-priority')`
(tasks.py 95): any enumeration of the active rows that is non-increasing
in `priority`.  The ORDER BY clause has a single key and no tie-break, so
the database may return equal-priority rows in any relative order (and the
model's `Meta.ordering`, were it in force, would tie-break by *name*, not
by declaration order). -/
def respectsPriorityOrder (rules ordered : List MatchingRule) : Prop :=
  ordered.Perm (rules.filter (fun r => r.is_active)) ∧
  ordered.Pairwise (fun a b => b.priority ≤ a.priority)

/-- The loop of `auto_classify_document` (tasks.py 101-139) over the rows
the query returned, in the order it returned them: the first rule whose
test matches is the one applied. -/
def classifyFirstMatch (regex : String → String → Bool → Bool)
    (ordered : List MatchingRule) (text : String) : Option MatchingRule :=
  ordered.find? (ruleMatched regex text)

/-- The rule chosen by `auto_classify_document`'s loop (tasks.py 95-139):
the first rule of the active rules, in descending-priority order, whose
test matches. -/
def classifyMatchedRule (regex : String → String → Bool → Bool)
    (rules : List MatchingRule) (search_text : String) : Option MatchingRule :=
  (orderByPriorityDesc (rules.filter (fun r => r.is_active))).find?
    (ruleMatched regex search_text)

/-- The assignment block of `auto_classify_document` (tasks.py 139-161):
document type, employee and status are set only when currently unset
(status only from `UNASSIGNED`/`NEW`), tags are added set-wise. -/
def applyRule (r : MatchingRule) (doc : Document) : Document :=
  let doc1 := if r.assign_document_type.isSome && doc.document_type = none then
      { doc with document_type := r.assign_document_type } else doc
  let doc2 := if r.assign_employee.isSome && doc1.employee = none then
      { doc1 with employee := r.assign_employee } else doc1
  let doc3 := if r.assign_status ≠ "" && (doc2.status = "UNASSIGNED" || doc2.status = "NEW") then
      { doc2 with status := r.assign_status } else doc2
  if r.assign_tags ≠ [] then
    { doc3 with tags := doc3.tags ++ r.assign_tags.filter (fun t => t ∉ doc3.tags) }
  else doc3

/-- The search text of the batch path (tasks.py 99). -/
def docSearchText (doc : Document) : String := doc.original_filename ++ " " ++ doc.title

/-- `auto_classify_document` (tasks.py 86-165) as a transition on the
database state `(document, stored rules)`: the first matching rule applies
its assignments to the document and evaluation stops.  The source writes
no `MatchingRule` field anywhere (no `rule.save()` occurs), so the stored
rules come back unchanged. -/
def auto_classify_document (regex : String → String → Bool → Bool)
    (rules : List MatchingRule) (doc : Document) :
    Bool × Document × List MatchingRule :=
  match classifyMatchedRule regex rules (docSearchText doc) with
  | some r => (true, applyRule r doc, rules)
  | none => (false, doc, rules)

/-- Spec-side winner (spec §4.6/§8): among the active matching rules, the
one with maximal priority, the earliest-declared on a tie. -/
def bestMatch (regex : String → String → Bool → Bool) (search_text : String)
    (rs : List MatchingRule) : Option MatchingRule :=
  rs.foldr (fun r acc =>
    if r.is_active && ruleMatched regex search_text r then
      match acc with
      | none => some r
      | some b => if b.priority ≤ r.priority then some r else some b
    else acc) none

theorem insertByPriority_eq_takeDrop (r : MatchingRule) (l : List MatchingRule) :
    insertByPriority r l =
      l.takeWhile (fun x => r.priority < x.priority) ++
        r :: l.dropWhile (fun x => r.priority < x.priority) := by
  induction l with
  | nil => rfl
  | cons x xs ih =>
    by_cases h : r.priority < x.priority
    · simp [insertByPriority, List.takeWhile_cons, List.dropWhile_cons, h, ih]
    · simp [insertByPriority, List.takeWhile_cons, List.dropWhile_cons, h]

theorem mem_insertByPriority {a r : MatchingRule} {l : List MatchingRule} :
    a ∈ insertByPriority r l ↔ a = r ∨ a ∈ l := by
  rw [insertByPriority_eq_takeDrop]
  constructor
  · intro h
    rcases List.mem_append.mp h with h | h
    · exact Or.inr ((List.takeWhile_sublist _).mem h)
    · rcases List.mem_cons.mp h with h | h
      · exact Or.inl h
      · exact Or.inr ((List.dropWhile_sublist _).mem h)
  · intro h
    rcases h with rfl | h
    · exact List.mem_append_right _ (List.mem_cons_self _ _)
    · rw [← List.takeWhile_append_dropWhile
        (p := fun x => decide (r.priority < x.priority)) (l := l)] at h
      rcases List.mem_append.mp h with h | h
      · exact List.mem_append_left _ h
      · exact List.mem_append_right _ (List.mem_cons_of_mem _ h)

/-- Insertion preserves descending-priority sortedness. -/
theorem pairwise_insertByPriority {r : MatchingRule} {l : List MatchingRule}
    (h : l.Pairwise (fun x y => y.priority ≤ x.priority)) :
    (insertByPriority r l).Pairwise (fun x y => y.priority ≤ x.priority) := by
  induction l with
  | nil => simp [insertByPriority]
  | cons x xs ih =>
    rcases List.pairwise_cons.mp h with ⟨hx, hxs⟩
    by_cases hp : r.priority < x.priority
    · simp only [insertByPriority, if_pos hp]
      refine List.pairwise_cons.mpr ⟨?_, ih hxs⟩
      intro b hb
      rcases mem_insertByPriority.mp hb with rfl | hb
      · exact le_of_lt hp
      · exact hx b hb
    · simp only [insertByPriority, if_neg hp]
      refine List.pairwise_cons.mpr ⟨?_, h⟩
      intro b hb
      rcases List.mem_cons.mp hb with rfl | hb
      · omega
      · exact le_trans (hx b hb) (by omega)

theorem orderByPriorityDesc_sorted (rs : List MatchingRule) :
    (orderByPriorityDesc rs).Pairwise (fun x y => y.priority ≤ x.priority) := by
  induction rs with
  | nil => simp [orderByPriorityDesc]
  | cons r rs ih => exact pairwise_insertByPriority ih

theorem mem_orderByPriorityDesc {a : MatchingRule} {rs : List MatchingRule} :
    a ∈ orderByPriorityDesc rs ↔ a ∈ rs := by
  induction rs with
  | nil => simp [orderByPriorityDesc]
  | cons r rs ih =>
    show a ∈ insertByPriority r (orderByPriorityDesc rs) ↔ _
    rw [mem_insertByPriority]
    simp [ih, eq_comm]

/-- Elements surviving the `dropWhile` of the insertion point have at most
the inserted rule's priority, in a sorted list. -/
theorem dropWhile_priority_le {a : MatchingRule} {l : List MatchingRule}
    (hs : l.Pairwise (fun x y => y.priority ≤ x.priority)) :
    ∀ b ∈ l.dropWhile (fun x => a.priority < x.priority), b.priority ≤ a.priority := by
  induction l with
  | nil => simp
  | cons x xs ih =>
    rcases List.pairwise_cons.mp hs with ⟨hx, hxs⟩
    by_cases hp : a.priority < x.priority
    · simpa [List.dropWhile_cons, hp] using ih hxs
    · simp only [List.dropWhile_cons, decide_eq_true_eq, hp, if_false]
      intro b hb
      rcases List.mem_cons.mp hb with rfl | hb
      · omega
      · exact le_trans (hx b hb) (by omega)

/-- First match of the descending-priority stable sort = highest-priority,
earliest-declared active matching rule. -/
theorem classifyMatchedRule_eq_bestMatch (regex : String → String → Bool → Bool)
    (search_text : String) (rs : List MatchingRule) :
    classifyMatchedRule regex rs search_text = bestMatch regex search_text rs := by
  unfold classifyMatchedRule bestMatch
  induction rs with
  | nil => rfl
  | cons a rs ih =>
    set q := ruleMatched regex search_text with hqdef
    by_cases ha : a.is_active
    · rw [show (a :: rs).filter (fun r => r.is_active) =
        a :: rs.filter (fun r => r.is_active) from by simp [List.filter_cons, ha]]
      rw [List.foldr_cons, ← ih]
      show (insertByPriority a (orderByPriorityDesc (rs.filter (fun r => r.is_active)))).find?
          q = _
      set s := orderByPriorityDesc (rs.filter (fun r => r.is_active)) with hsdef
      have hsorted : s.Pairwise (fun x y => y.priority ≤ x.priority) :=
        orderByPriorityDesc_sorted (rs.filter (fun r => r.is_active))
      have hsplit : s.find? q =
          ((s.takeWhile (fun x => a.priority < x.priority)).find? q).or
            ((s.dropWhile (fun x => a.priority < x.priority)).find? q) := by
        conv_lhs => rw [← List.takeWhile_append_dropWhile
          (p := fun x => decide (a.priority < x.priority)) (l := s)]
        rw [List.find?_append]
      rw [insertByPriority_eq_takeDrop, List.find?_append]
      by_cases hq : q a = true
      · rw [if_pos (by simp [ha, hq]), List.find?_cons_of_pos _ hq]
        rcases htw : (s.takeWhile (fun x => a.priority < x.priority)).find? q with _ | b
        · rw [hsplit, htw]
          rcases hdw : (s.dropWhile (fun x => a.priority < x.priority)).find? q with _ | b
          · rw [hdw]
            rfl
          · have hb : b ∈ s.dropWhile (fun x => a.priority < x.priority) :=
              List.mem_of_find?_eq_some hdw
            have hble := dropWhile_priority_le (a := a) hsorted b hb
            rw [hdw]
            simp [Option.or, hble]
        · have hb : b ∈ s.takeWhile (fun x => a.priority < x.priority) :=
            List.mem_of_find?_eq_some htw
          have hbgt : a.priority < b.priority := by
            have := List.mem_takeWhile_imp hb
            simpa using this
          rw [hsplit, htw]
          simp [Option.or, not_le.mpr hbgt]
      · rw [if_neg (by simp [hq]), List.find?_cons_of_neg _ (by simpa using hq), hsplit]
    · rw [show (a :: rs).filter (fun r => r.is_active) =
        rs.filter (fun r => r.is_active) from by simp [List.filter_cons, ha]]
      rw [List.foldr_cons, if_neg (by simp [Bool.eq_false_iff.mpr, ha]), ih]

/-- Inserting preserves the multiset of rows. -/
theorem perm_insertByPriority (r : MatchingRule) (l : List MatchingRule) :
    (insertByPriority r l).Perm (r :: l) := by
  induction l with
  | nil => exact List.Perm.refl _
  | cons x xs ih =>
    by_cases h : r.priority < x.priority
    · simp only [insertByPriority, if_pos h]
      exact (List.Perm.cons x ih).trans (List.Perm.swap r x xs)
    · simp only [insertByPriority, if_neg h]
      exact List.Perm.refl _

theorem orderByPriorityDesc_perm (rs : List MatchingRule) :
    (orderByPriorityDesc rs).Perm rs := by
  induction rs with
  | nil => exact List.Perm.refl _
  | cons r rs ih =>
    exact (perm_insertByPriority r (orderByPriorityDesc rs)).trans (List.Perm.cons r ih)

/-- The stable-sort instance is one admissible result of the query. -/
theorem stableSort_respectsPriorityOrder (rs : List MatchingRule) :
    respectsPriorityOrder rs (orderByPriorityDesc (rs.filter (fun r => r.is_active))) :=
  ⟨orderByPriorityDesc_perm _, orderByPriorityDesc_sorted _⟩

/-- In a descending-priority list, the first element satisfying a test has
priority at least that of every element satisfying the test. -/
theorem find?_pairwise_max (q : MatchingRule → Bool) :
    ∀ (l : List MatchingRule) (r : MatchingRule),
      l.Pairwise (fun a b => b.priority ≤ a.priority) →
      l.find? q = some r →
      ∀ r' ∈ l, q r' = true → r'.priority ≤ r.priority := by
  intro l
  induction l with
  | nil => intro r _ hf; cases hf
  | cons x xs ih =>
    intro r hs hf r' hr' hq
    rcases List.pairwise_cons.mp hs with ⟨hx, hxs⟩
    by_cases hqx : q x = true
    · rw [List.find?_cons_of_pos _ hqx] at hf
      have hxr : x = r := Option.some.inj hf
      subst hxr
      rcases List.mem_cons.mp hr' with rfl | hr'
      · exact le_refl _
      · exact hx r' hr'
    · rw [List.find?_cons_of_neg _ (by simpa using hqx)] at hf
      rcases List.mem_cons.mp hr' with rfl | hr'
      · exact absurd hq hqx
      · exact ih r hxs hf r' hr' hq

/-- **C9 (amended).** The classifier's rule query orders only by
descending `priority` and specifies no tie-break, so the relative order of
equal-priority rules is whatever the database returns.  Over *every*
admissible returned order: the rule applied is the first match of that
order, and it is always a maximal-priority active matching rule — so of
two active matching rules the strictly higher-priority one always wins —
and some rule is applied whenever an active rule matches; at equal
priority the winner depends on the returned order, and the earlier-declared
rule is not guaranteed to win (see the tie counterexample). -/
theorem rule_priority_order_unspecified_ties
    (regex : String → String → Bool → Bool) (rules ordered : List MatchingRule)
    (text : String) (hord : respectsPriorityOrder rules ordered) :
    (∀ r : MatchingRule, classifyFirstMatch regex ordered text = some r →
      r ∈ rules ∧ r.is_active = true ∧ ruleMatched regex text r = true ∧
      ∀ r' ∈ rules, r'.is_active = true → ruleMatched regex text r' = true →
        r'.priority ≤ r.priority) ∧
    (∀ r1 r2 : MatchingRule, r1 ∈ rules → r2 ∈ rules →
      r1.is_active = true → r2.is_active = true →
      ruleMatched regex text r1 = true → ruleMatched regex text r2 = true →
      r2.priority < r1.priority →
      classifyFirstMatch regex ordered text ≠ some r2) ∧
    (∀ r ∈ rules, r.is_active = true → ruleMatched regex text r = true →
      ∃ r0, classifyFirstMatch regex ordered text = some r0) := by
  rcases hord with ⟨hperm, hsort⟩
  have hmem : ∀ a : MatchingRule,
      a ∈ ordered ↔ a ∈ rules.filter (fun r => r.is_active) :=
    fun a => hperm.mem_iff
  have hmax : ∀ r : MatchingRule, classifyFirstMatch regex ordered text = some r →
      r ∈ rules ∧ r.is_active = true ∧ ruleMatched regex text r = true ∧
      ∀ r' ∈ rules, r'.is_active = true → ruleMatched regex text r' = true →
        r'.priority ≤ r.priority := by
    intro r hf
    have hf' : ordered.find? (ruleMatched regex text) = some r := hf
    have hrmem : r ∈ ordered := List.mem_of_find?_eq_some hf'
    rcases List.mem_filter.mp ((hmem r).mp hrmem) with ⟨hrr, hact⟩
    refine ⟨hrr, by simpa using hact, List.find?_some hf', ?_⟩
    intro r' hr' hact' hm'
    have hr'o : r' ∈ ordered :=
      (hmem r').mpr (List.mem_filter.mpr ⟨hr', by simp [hact']⟩)
    exact find?_pairwise_max (ruleMatched regex text) ordered r hsort hf' r' hr'o hm'
  refine ⟨hmax, ?_, ?_⟩
  · intro r1 r2 h1 h2 ha1 ha2 hm1 hm2 hlt hf
    have := (hmax r2 hf).2.2.2 r1 h1 ha1 hm1
    omega
  · intro r hr hact hm
    rcases hfm : ordered.find? (ruleMatched regex text) with _ | r0
    · exfalso
      have hro : r ∈ ordered :=
        (hmem r).mpr (List.mem_filter.mpr ⟨hr, by simp [hact]⟩)
      exact absurd hm (by simpa using List.find?_eq_none.mp hfm r hro)
    · exact ⟨r0, hfm⟩

/-- A regex oracle for concrete instances (no `REGEX` rule consults it). -/
def rx0 : String → String → Bool → Bool := fun _ _ _ => false

/-- A concrete active rule: priority 5, `EXACT` on `"lohn"`. -/
def ruleA : MatchingRule := ⟨true, 5, "EXACT", "lohn", false, none, none, "", [], 0, none⟩

/-- A concrete active rule: priority 3, `EXACT` on `"schein"`. -/
def ruleB : MatchingRule := ⟨true, 3, "EXACT", "schein", false, none, none, "", [], 0, none⟩

/-- A concrete unclassified document. -/
def docL : Document := ⟨"Lohnschein.pdf", "Lohnschein", none, none, "UNASSIGNED", []⟩

/-- A concrete active rule: priority 3, `EXACT` on `"lohn"`. -/
def ruleC : MatchingRule := ⟨true, 3, "EXACT", "lohn", false, none, none, "", [], 0, none⟩

/-- A concrete active rule: priority 3, `EXACT` on `"schein"`. -/
def ruleD : MatchingRule := ⟨true, 3, "EXACT", "schein", false, none, none, "", [], 0, none⟩

/-- **C9 counterexample.** Declaration order is `[ruleC, ruleD]` (`ruleC`
earlier-declared); both rules are active with equal priority and both
match `"Lohnschein.pdf"`.  The order `[ruleD, ruleC]` is an admissible
result of `order_by('-priority')` for these rows — it permutes the active
rows and is non-increasing in priority — and under it the classifier
applies the later-declared `ruleD`, not `ruleC`: the claimed tie-break by
declaration order is not a guarantee of the code. -/
theorem rule_priority_tie_counterexample :
    ruleC.priority = ruleD.priority ∧
    ruleC.is_active = true ∧ ruleD.is_active = true ∧
    ruleMatched rx0 "Lohnschein.pdf" ruleC = true ∧
    ruleMatched rx0 "Lohnschein.pdf" ruleD = true ∧
    respectsPriorityOrder [ruleC, ruleD] [ruleD, ruleC] ∧
    classifyFirstMatch rx0 [ruleD, ruleC] "Lohnschein.pdf" = some ruleD ∧
    ruleD ≠ ruleC := by
  exact ⟨rfl, rfl, rfl, by decide, by decide, ⟨by decide, by decide⟩, by decide, by decide⟩

/-- Witness for `rule_priority_order_unspecified_ties`: the admissible
order `[ruleD, ruleC]` of the two equal-priority rules applies `ruleD`,
whose priority is maximal among the matching rules. -/
theorem rule_priority_order_unspecified_ties_witness :
    classifyFirstMatch rx0 [ruleD, ruleC] "Lohnschein.pdf" = some ruleD ∧
    ruleC.priority ≤ ruleD.priority := by
  have h := rule_priority_order_unspecified_ties rx0 [ruleC, ruleD] [ruleD, ruleC]
    "Lohnschein.pdf" ⟨by decide, by decide⟩
  exact ⟨by decide, (h.1 ruleD (by decide)).2.2.2 ruleC (by decide) (by decide) (by decide)⟩

/-- **C4 counterexample.** A rule matches the document — classification
returns `true` — yet the stored rules come back unchanged: the matched
rule's `match_count` is still `0` (not incremented to `1`) and its
`last_matched_at` is still unset.  `auto_classify_document` (tasks.py
86-165) writes no `MatchingRule` field. -/
theorem auto_classify_stats_counterexample :
    auto_classify_document rx0 [ruleA] docL = (true, docL, [ruleA]) ∧
    ruleA.match_count = 0 ∧ ruleA.last_matched_at = none := by
  exact ⟨by decide, rfl, rfl⟩

/-- **C4 (amended).** Whenever a matching rule is found, the first matching
rule in priority order is applied and evaluation stops there (the document
update is exactly that of the highest-priority, earliest-declared active
matching rule, and classification reports a match exactly when some active
rule matches); the rules' match counters and last-matched timestamps are
left unchanged. -/
theorem auto_classify_no_stats_update (regex : String → String → Bool → Bool)
    (rules : List MatchingRule) (doc : Document) :
    (auto_classify_document regex rules doc).2.2 = rules ∧
    ((auto_classify_document regex rules doc).1 = true ↔
      ∃ r ∈ rules, r.is_active = true ∧ ruleMatched regex (docSearchText doc) r = true) ∧
    (auto_classify_document regex rules doc).2.1 =
      (match bestMatch regex (docSearchText doc) rules with
       | some r => applyRule r doc
       | none => doc) := by
  have hbm := classifyMatchedRule_eq_bestMatch regex (docSearchText doc) rules
  unfold auto_classify_document
  rcases h : classifyMatchedRule regex rules (docSearchText doc) with _ | r
  · refine ⟨rfl, ?_, ?_⟩
    · simp only [Bool.false_eq_true, false_iff]
      rintro ⟨r, hr, hact, hm⟩
      have hmem : r ∈ orderByPriorityDesc (rules.filter (fun x => x.is_active)) :=
        mem_orderByPriorityDesc.mpr (List.mem_filter.mpr ⟨hr, by simp [hact]⟩)
      exact List.find?_eq_none.mp h r hmem hm
    · rw [← hbm, h]
  · refine ⟨rfl, ?_, ?_⟩
    · simp only [true_iff]
      have hmem := List.mem_of_find?_eq_some h
      have hq := List.find?_some h
      have hr' : r ∈ rules.filter (fun x => x.is_active) := mem_orderByPriorityDesc.mp hmem
      rcases List.mem_filter.mp hr' with ⟨hrr, hact⟩
      exact ⟨r, hrr, by simpa using hact, hq⟩
    · rw [← hbm, h]

/-- Witness for `auto_classify_no_stats_update`: at a concrete rule set and
document, classification reports a match and the stored rules are
unchanged. -/
theorem auto_classify_no_stats_update_witness :
    (auto_classify_document rx0 [ruleB] docL).2.2 = [ruleB] ∧
    (auto_classify_document rx0 [ruleB] docL).1 = true := by
  refine ⟨(auto_classify_no_stats_update rx0 [ruleB] docL).1, ?_⟩
  exact ((auto_classify_no_stats_update rx0 [ruleB] docL).2.1).mpr
    ⟨ruleB, by decide, by decide, by decide⟩

/-! ## Scan-job counters (`_run_sage_scan`, tasks.py 922-1360)

The orchestrator counts with four counters.  `total_files` is set once to
the number of files that survive the path pre-check (tasks.py 1004);
`skipped_files` starts at the path-skipped count (tasks.py 1005) and grows
by one for every hash-deduplicated file; `processed_files` grows by one per
normal file and by `len(split_results)` per split personnel PDF (tasks.py
1170-1171, 1282-1283); `error_files` grows by one per failed file.  The
worker pool is modelled as the sequence of completed per-file outcomes. -/

structure ScanCounters where
  total : Nat
  processed : Nat
  error : Nat
  skipped : Nat
deriving Repr, DecidableEq

/-- Outcome of `process_single_file` for one dispatched file: skipped as a
duplicate (in-memory or DB hash hit), failed with an exception, or
completed creating `docs` documents (`docs = 1` for a normal file,
`docs = len(split_results) ≥ 2` for a split personnel PDF). -/
inductive FileOutcome
  | skip
  | err
  | done (docs : Nat)
deriving Repr, DecidableEq

/-- Counter update of one completed future (tasks.py 1041-1296). -/
def applyOutcome (c : ScanCounters) : FileOutcome → ScanCounters
  | .skip => { c with skipped := c.skipped + 1 }
  | .err => { c with error := c.error + 1 }
  | .done k => { c with processed := c.processed + k }

/-- tasks.py 1004-1006: the RUNNING job starts with `total_files` the
post-path-check file count and `skipped_files` the path-skipped count. -/
def initialCounters (pathSkips newFiles : Nat) : ScanCounters :=
  ⟨newFiles, 0, 0, pathSkips⟩

/-- The counter values after the first `k` completed files — the values a
batch progress flush persists at that point and, for `k` = length, the
finalized values (tasks.py 1317-1339). -/
def countersAfter (pathSkips : Nat) (outcomes : List FileOutcome) (k : Nat) : ScanCounters :=
  (outcomes.take k).foldl applyOutcome (initialCounters pathSkips outcomes.length)

/-- Folding outcomes never decreases any counter and never changes
`total`. -/
theorem foldl_applyOutcome_growth (l : List FileOutcome) :
    ∀ c : ScanCounters,
      (l.foldl applyOutcome c).total = c.total ∧
      c.processed ≤ (l.foldl applyOutcome c).processed ∧
      c.error ≤ (l.foldl applyOutcome c).error ∧
      c.skipped ≤ (l.foldl applyOutcome c).skipped := by
  induction l with
  | nil => intro c; exact ⟨rfl, le_refl _, le_refl _, le_refl _⟩
  | cons o l ih =>
    intro c
    have h := ih (applyOutcome c o)
    rcases h with ⟨ht, hp, he, hs⟩
    refine ⟨?_, ?_, ?_, ?_⟩ <;> cases o <;>
      simp only [List.foldl_cons, applyOutcome] at * <;> omega

/-- When no file produces more than one document, the per-file fold adds at
most the number of files to `processed + error + skipped`. -/
theorem foldl_applyOutcome_sum (l : List FileOutcome)
    (hone : ∀ o ∈ l, ∀ d, o = FileOutcome.done d → d ≤ 1) :
    ∀ c : ScanCounters,
      (l.foldl applyOutcome c).processed + (l.foldl applyOutcome c).error +
        (l.foldl applyOutcome c).skipped ≤
      c.processed + c.error + c.skipped + l.length := by
  induction l with
  | nil => intro c; simp
  | cons o l ih =>
    intro c
    have hone' : ∀ o ∈ l, ∀ d, o = FileOutcome.done d → d ≤ 1 := fun o ho =>
      hone o (List.mem_cons_of_mem _ ho)
    have h := ih (fun o ho => hone' o ho) (applyOutcome c o)
    cases o with
    | skip => simp only [List.foldl_cons, applyOutcome, List.length_cons] at *; omega
    | err => simp only [List.foldl_cons, applyOutcome, List.length_cons] at *; omega
    | done d =>
      have hd : d ≤ 1 := hone _ (List.mem_cons_self _ _) d rfl
      simp only [List.foldl_cons, applyOutcome, List.length_cons] at *
      omega

/-- **C5 counterexample.** Two code-reachable runs violate
`processed + error + skipped ≤ total`: a run whose only file is removed by
the path pre-check persists `total = 0, skipped = 1` (tasks.py 1004-1015),
and a run whose single file splits into two documents finalizes
`total = 1, processed = 2` (tasks.py 1170-1171, 1335). -/
theorem scan_counter_claim_counterexample :
    ((countersAfter 1 [] 0).processed + (countersAfter 1 [] 0).error +
        (countersAfter 1 [] 0).skipped > (countersAfter 1 [] 0).total) ∧
    ((countersAfter 0 [FileOutcome.done 2] 1).processed +
        (countersAfter 0 [FileOutcome.done 2] 1).error +
        (countersAfter 0 [FileOutcome.done 2] 1).skipped >
      (countersAfter 0 [FileOutcome.done 2] 1).total) := by
  exact ⟨by decide, by decide⟩

/-- **C5 (amended).** Over any run, `total` is constant and `processed`,
`error` and `skipped` are monotonically non-decreasing from flush to flush;
the bound `processed + error + skipped ≤ total` holds at every point
provided no file was dropped by the path pre-check (path skips are counted
in `skipped` but excluded from `total`) and no file split into several
documents (a split adds its segment count to `processed`). -/
theorem scan_counters_progress (pathSkips : Nat) (outcomes : List FileOutcome) :
    (∀ j k : Nat, j ≤ k →
      (countersAfter pathSkips outcomes j).total =
        (countersAfter pathSkips outcomes k).total ∧
      (countersAfter pathSkips outcomes j).processed ≤
        (countersAfter pathSkips outcomes k).processed ∧
      (countersAfter pathSkips outcomes j).error ≤
        (countersAfter pathSkips outcomes k).error ∧
      (countersAfter pathSkips outcomes j).skipped ≤
        (countersAfter pathSkips outcomes k).skipped) ∧
    (pathSkips = 0 → (∀ o ∈ outcomes, ∀ d, o = FileOutcome.done d → d ≤ 1) →
      ∀ k : Nat,
        (countersAfter pathSkips outcomes k).processed +
          (countersAfter pathSkips outcomes k).error +
          (countersAfter pathSkips outcomes k).skipped ≤
        (countersAfter pathSkips outcomes k).total) := by
  constructor
  · intro j k hjk
    have htt : (outcomes.take k).take j = outcomes.take j := by
      rw [List.take_take, min_eq_left hjk]
    have hsplit : outcomes.take k = outcomes.take j ++ (outcomes.take k).drop j := by
      conv_lhs => rw [← List.take_append_drop j (outcomes.take k)]
      rw [htt]
    unfold countersAfter
    rw [hsplit, List.foldl_append]
    obtain ⟨h1, h2, h3, h4⟩ := foldl_applyOutcome_growth ((outcomes.take k).drop j)
      ((outcomes.take j).foldl applyOutcome (initialCounters pathSkips outcomes.length))
    exact ⟨h1.symm, h2, h3, h4⟩
  · intro hps hone k
    subst hps
    have htot : (countersAfter 0 outcomes k).total = outcomes.length :=
      (foldl_applyOutcome_growth (outcomes.take k) (initialCounters 0 outcomes.length)).1
    have hsum : (countersAfter 0 outcomes k).processed +
        (countersAfter 0 outcomes k).error + (countersAfter 0 outcomes k).skipped ≤
        0 + 0 + 0 + (outcomes.take k).length :=
      foldl_applyOutcome_sum (outcomes.take k)
        (fun o ho d hd => hone o (List.mem_of_mem_take ho) d hd)
        (initialCounters 0 outcomes.length)
    have hlen : (outcomes.take k).length ≤ outcomes.length := by
      rw [List.length_take]
      omega
    omega

/-- Witness for `scan_counters_progress`: a concrete two-file run (one
hash-skip, one error) with no path skips and no splits — `skipped` grows
from flush 1 to flush 2, and the final counters satisfy the bound. -/
theorem scan_counters_progress_witness :
    (countersAfter 0 [FileOutcome.skip, FileOutcome.err] 1).skipped ≤
      (countersAfter 0 [FileOutcome.skip, FileOutcome.err] 2).skipped ∧
    (countersAfter 0 [FileOutcome.skip, FileOutcome.err] 2).processed +
      (countersAfter 0 [FileOutcome.skip, FileOutcome.err] 2).error +
      (countersAfter 0 [FileOutcome.skip, FileOutcome.err] 2).skipped ≤
    (countersAfter 0 [FileOutcome.skip, FileOutcome.err] 2).total := by
  have hone : ∀ o ∈ [FileOutcome.skip, FileOutcome.err],
      ∀ d, o = FileOutcome.done d → d ≤ 1 := by
    intro o ho d hd
    rcases List.mem_cons.mp ho with rfl | ho
    · exact absurd hd (by simp)
    rcases List.mem_cons.mp ho with rfl | ho
    · exact absurd hd (by simp)
    · cases ho
  constructor
  · exact ((scan_counters_progress 0 [FileOutcome.skip, FileOutcome.err]).1 1 2
      (by omega)).2.2.2
  · exact (scan_counters_progress 0 [FileOutcome.skip, FileOutcome.err]).2 rfl hone 2

/-! ## Ingestion dedup and idempotence (`_run_sage_scan` phases 1-3,
tasks.py 952-1360)

A source file is its durable path, its content hash and its tenant code.
`ProcessedFile` rows are the dedup authority: one row per ingested file,
carrying `(tenant, sha256_hash, original_path)`.  The worker pool is
modelled sequentially (per-file work is independent; the in-memory and the
DB hash check coincide in the sequential model) and file I/O never fails,
so no error outcomes arise. -/

structure SrcFile where
  path : String
  hash : String
  tenantCode : String
deriving Repr, DecidableEq

structure ProcessedFileRec where
  tenantCode : String
  hash : String
  path : String
deriving Repr, DecidableEq

/-- The persistent state the scan reads and writes: `ProcessedFile` rows
and the number of `Document` rows. -/
structure ScanState where
  records : List ProcessedFileRec
  documents : Nat
deriving Repr, DecidableEq

/-- The final counters of one scan job. -/
structure ScanJobResult where
  total : Nat
  processed : Nat
  error : Nat
  skipped : Nat
  completed : Bool
deriving Repr, DecidableEq

/-- Phase-1 path index (tasks.py 955): `original_path` of every
`ProcessedFile` row. -/
def knownPath (st : ScanState) (p : String) : Bool :=
  st.records.any (fun r => r.path = p)

/-- Phase-1 per-tenant hash index (tasks.py 956-963) and the DB-level
duplicate check (tasks.py 1051). -/
def knownHash (st : ScanState) (t h : String) : Bool :=
  st.records.any (fun r => r.tenantCode = t && r.hash = h)

/-- `process_single_file` (tasks.py 1026-1296) for one dispatched file: a
hash already recorded for the tenant counts the file as skipped and writes
nothing; otherwise `docsOf f` documents (1 normally, the segment count for
a split personnel PDF) and exactly one `ProcessedFile` row with the file's
path and hash are created. -/
def processOneFile (docsOf : SrcFile → Nat) (acc : ScanJobResult × ScanState)
    (f : SrcFile) : ScanJobResult × ScanState :=
  if knownHash acc.2 f.tenantCode f.hash then
    ({ acc.1 with skipped := acc.1.skipped + 1 }, acc.2)
  else
    ({ acc.1 with processed := acc.1.processed + docsOf f },
     { acc.2 with
        records := acc.2.records ++ [⟨f.tenantCode, f.hash, f.path⟩],
        documents := acc.2.documents + docsOf f })

/-- `_run_sage_scan` (tasks.py 922-1360): drop files whose path is already
recorded before hashing anything (tasks.py 997-1002), set
`total_files` to the surviving count and `skipped_files` to the path-skip
count (tasks.py 1004-1006), finish immediately when nothing is new
(tasks.py 1011-1016), otherwise process every surviving file and finalize
COMPLETED (tasks.py 1333-1339). -/
def runScan (docsOf : SrcFile → Nat) (files : List SrcFile) (st : ScanState) :
    ScanJobResult × ScanState :=
  if (files.filter (fun f => !knownPath st f.path)).isEmpty then
    ({ total := 0, processed := 0, error := 0,
       skipped := files.length - (files.filter (fun f => !knownPath st f.path)).length,
       completed := true }, st)
  else
    (files.filter (fun f => !knownPath st f.path)).foldl (processOneFile docsOf)
      ({ total := (files.filter (fun f => !knownPath st f.path)).length,
         processed := 0, error := 0,
         skipped := files.length - (files.filter (fun f => !knownPath st f.path)).length,
         completed := true }, st)

/-- Unfolding equation of `runScan` when nothing survives the path
pre-check. -/
theorem runScan_eq_pos (docsOf : SrcFile → Nat) (files : List SrcFile) (st : ScanState)
    (h : (files.filter (fun f => !knownPath st f.path)).isEmpty) :
    runScan docsOf files st =
      ({ total := 0, processed := 0, error := 0,
         skipped := files.length - (files.filter (fun f => !knownPath st f.path)).length,
         completed := true }, st) := by
  unfold runScan
  rw [if_pos h]

/-- Unfolding equation of `runScan` when new files remain. -/
theorem runScan_eq_neg (docsOf : SrcFile → Nat) (files : List SrcFile) (st : ScanState)
    (h : ¬ (files.filter (fun f => !knownPath st f.path)).isEmpty) :
    runScan docsOf files st =
      (files.filter (fun f => !knownPath st f.path)).foldl (processOneFile docsOf)
        ({ total := (files.filter (fun f => !knownPath st f.path)).length,
           processed := 0, error := 0,
           skipped := files.length - (files.filter (fun f => !knownPath st f.path)).length,
           completed := true }, st) := by
  unfold runScan
  rw [if_neg h]

/-- The records only grow during a fold of `processOneFile`. -/
theorem fold_records_grow (docsOf : SrcFile → Nat) (l : List SrcFile) :
    ∀ acc : ScanJobResult × ScanState,
      ∃ ext, (l.foldl (processOneFile docsOf) acc).2.records = acc.2.records ++ ext := by
  induction l with
  | nil => intro acc; exact ⟨[], by simp⟩
  | cons f l ih =>
    intro acc
    rw [List.foldl_cons]
    rcases ih (processOneFile docsOf acc f) with ⟨ext, hext⟩
    unfold processOneFile at hext ⊢
    by_cases h : knownHash acc.2 f.tenantCode f.hash
    · rw [if_pos h] at hext
      exact ⟨ext, by rw [if_pos h]; exact hext⟩
    · rw [if_neg h] at hext
      refine ⟨⟨f.tenantCode, f.hash, f.path⟩ :: ext, ?_⟩
      rw [if_neg h]
      simpa [List.append_assoc] using hext

/-- A hash known before a fold stays known after it. -/
theorem knownHash_mono (docsOf : SrcFile → Nat) (l : List SrcFile)
    (acc : ScanJobResult × ScanState) (t h : String)
    (hk : knownHash acc.2 t h = true) :
    knownHash (l.foldl (processOneFile docsOf) acc).2 t h = true := by
  rcases fold_records_grow docsOf l acc with ⟨ext, hext⟩
  unfold knownHash at hk ⊢
  rw [hext, List.any_append, hk, Bool.true_or]

/-- After running the scan over `files` from any state, every file's hash
is recorded for its tenant. -/
theorem fold_knows_all_hashes (docsOf : SrcFile → Nat) (l : List SrcFile) :
    ∀ acc : ScanJobResult × ScanState, ∀ f ∈ l,
      knownHash (l.foldl (processOneFile docsOf) acc).2 f.tenantCode f.hash = true := by
  induction l with
  | nil => intro acc f hf; cases hf
  | cons g l ih =>
    intro acc f hf
    rw [List.foldl_cons]
    rcases List.mem_cons.mp hf with rfl | hf
    · have hg : knownHash (processOneFile docsOf acc f).2 f.tenantCode f.hash = true := by
        unfold processOneFile
        by_cases h : knownHash acc.2 f.tenantCode f.hash
        · rw [if_pos h]
          exact h
        · rw [if_neg h]
          unfold knownHash
          simp
      exact knownHash_mono docsOf l _ _ _ hg
    · exact ih (processOneFile docsOf acc g) f hf

/-- Folding files whose hashes are all already recorded only counts skips:
the job gains `l.length` skips and the state does not change. -/
theorem fold_all_known (docsOf : SrcFile → Nat) (l : List SrcFile) :
    ∀ (job : ScanJobResult) (st : ScanState),
      (∀ f ∈ l, knownHash st f.tenantCode f.hash = true) →
      l.foldl (processOneFile docsOf) (job, st) =
        ({ job with skipped := job.skipped + l.length }, st) := by
  induction l with
  | nil => intro job st _; simp
  | cons f l ih =>
    intro job st hall
    rw [List.foldl_cons]
    have hf : knownHash st f.tenantCode f.hash = true := hall f (List.mem_cons_self _ _)
    have hstep : processOneFile docsOf (job, st) f =
        ({ job with skipped := job.skipped + 1 }, st) := by
      unfold processOneFile
      rw [if_pos hf]
    rw [hstep, ih _ st (fun g hg => hall g (List.mem_cons_of_mem _ hg))]
    have harith : job.skipped + 1 + l.length = job.skipped + (l.length + 1) := by omega
    simp [harith]

/-- A path known before a fold stays known after it. -/
theorem knownPath_mono (docsOf : SrcFile → Nat) (l : List SrcFile)
    (acc : ScanJobResult × ScanState) (p : String)
    (hk : knownPath acc.2 p = true) :
    knownPath (l.foldl (processOneFile docsOf) acc).2 p = true := by
  rcases fold_records_grow docsOf l acc with ⟨ext, hext⟩
  unfold knownPath at hk ⊢
  rw [hext, List.any_append, hk, Bool.true_or]

/-- With pairwise-distinct `(tenant, hash)` keys and no key recorded
beforehand, the scan records every file's path. -/
theorem fold_knows_all_paths (docsOf : SrcFile → Nat) (l : List SrcFile) :
    ∀ acc : ScanJobResult × ScanState,
      (∀ f ∈ l, knownHash acc.2 f.tenantCode f.hash = false) →
      (l.map (fun f => (f.tenantCode, f.hash))).Nodup →
      ∀ f ∈ l, knownPath (l.foldl (processOneFile docsOf) acc).2 f.path = true := by
  induction l with
  | nil => intro acc _ _ f hf; cases hf
  | cons g l ih =>
    intro acc hfresh hnd f hf
    have hg : knownHash acc.2 g.tenantCode g.hash = false :=
      hfresh g (List.mem_cons_self _ _)
    have hstep : processOneFile docsOf acc g =
        ({ acc.1 with processed := acc.1.processed + docsOf g },
         { acc.2 with
            records := acc.2.records ++ [⟨g.tenantCode, g.hash, g.path⟩],
            documents := acc.2.documents + docsOf g }) := by
      unfold processOneFile
      rw [if_neg (by simp [hg])]
    rw [List.map_cons] at hnd
    rcases List.nodup_cons.mp hnd with ⟨hgnot, hndtail⟩
    rw [List.foldl_cons, hstep]
    rcases List.mem_cons.mp hf with rfl | hf
    · apply knownPath_mono
      unfold knownPath
      simp
    · apply ih _ ?_ hndtail f hf
      intro f' hf'
      have h1 : knownHash acc.2 f'.tenantCode f'.hash = false :=
        hfresh f' (List.mem_cons_of_mem _ hf')
      have h2 : (decide (g.tenantCode = f'.tenantCode) &&
          decide (g.hash = f'.hash)) = false := by
        by_contra hcon
        rw [Bool.not_eq_false, Bool.and_eq_true, decide_eq_true_eq,
          decide_eq_true_eq] at hcon
        refine hgnot ?_
        rw [show (g.tenantCode, g.hash) = (f'.tenantCode, f'.hash) from by
          rw [hcon.1, hcon.2]]
        exact List.mem_map_of_mem _ hf'
      unfold knownHash at h1 ⊢
      rw [List.any_append, h1]
      simpa using h2

/-- **C6 counterexample.** One source file, two runs: the second run
creates no document, but finishes with `skipped = 1` and `total = 0` — the
path pre-check removes the file from `total_files` while still counting it
in `skipped_files`, so `skipped == total` fails. -/
theorem second_scan_claim_counterexample :
    (runScan (fun _ => 1) [⟨"p", "h", "t"⟩]
        (runScan (fun _ => 1) [⟨"p", "h", "t"⟩] ⟨[], 0⟩).2).2.documents =
      (runScan (fun _ => 1) [⟨"p", "h", "t"⟩] ⟨[], 0⟩).2.documents ∧
    (runScan (fun _ => 1) [⟨"p", "h", "t"⟩]
        (runScan (fun _ => 1) [⟨"p", "h", "t"⟩] ⟨[], 0⟩).2).1.skipped = 1 ∧
    (runScan (fun _ => 1) [⟨"p", "h", "t"⟩]
        (runScan (fun _ => 1) [⟨"p", "h", "t"⟩] ⟨[], 0⟩).2).1.total = 0 ∧
    (runScan (fun _ => 1) [⟨"p", "h", "t"⟩]
        (runScan (fun _ => 1) [⟨"p", "h", "t"⟩] ⟨[], 0⟩).2).1.skipped ≠
      (runScan (fun _ => 1) [⟨"p", "h", "t"⟩]
        (runScan (fun _ => 1) [⟨"p", "h", "t"⟩] ⟨[], 0⟩).2).1.total := by
  exact ⟨by decide, by decide, by decide, by decide⟩

/-- **C6 (amended).** Re-running the scan over an unchanged source set
after a completed first run creates zero new Documents and finishes
COMPLETED with `processed = 0`, `error = 0` and `skipped` equal to the
full source-set size; `total` counts only the files not removed by the
path pre-check, and when the first run ingested every file (pairwise
distinct dedup keys) the second run's `total` is `0`, not `skipped`. -/
theorem second_scan_all_skipped (docsOf : SrcFile → Nat) (files : List SrcFile) :
    (runScan docsOf files (runScan docsOf files ⟨[], 0⟩).2).2.documents =
      (runScan docsOf files ⟨[], 0⟩).2.documents ∧
    (runScan docsOf files (runScan docsOf files ⟨[], 0⟩).2).1.processed = 0 ∧
    (runScan docsOf files (runScan docsOf files ⟨[], 0⟩).2).1.error = 0 ∧
    (runScan docsOf files (runScan docsOf files ⟨[], 0⟩).2).1.skipped = files.length ∧
    (runScan docsOf files (runScan docsOf files ⟨[], 0⟩).2).1.completed = true ∧
    ((files.map (fun f => (f.tenantCode, f.hash))).Nodup →
      (runScan docsOf files (runScan docsOf files ⟨[], 0⟩).2).1.total = 0) := by
  have hfilter1 : files.filter (fun f => !knownPath ⟨[], 0⟩ f.path) = files :=
    List.filter_eq_self.mpr (fun f _ => by rfl)
  by_cases hne1 : files = []
  · subst hne1
    refine ⟨rfl, rfl, rfl, rfl, rfl, fun _ => rfl⟩
  · have hr1 : runScan docsOf files ⟨[], 0⟩ =
        files.foldl (processOneFile docsOf)
          ({ total := files.length, processed := 0, error := 0,
             skipped := files.length - files.length, completed := true }, ⟨[], 0⟩) := by
      rw [runScan_eq_neg docsOf files ⟨[], 0⟩
        (by rw [hfilter1]; simpa [List.isEmpty_iff] using hne1), hfilter1]
    have hknown : ∀ f ∈ files,
        knownHash (runScan docsOf files ⟨[], 0⟩).2 f.tenantCode f.hash = true := by
      intro f hf
      rw [hr1]
      exact fold_knows_all_hashes docsOf files _ f hf
    by_cases hempty2 : (files.filter
        (fun f => !knownPath (runScan docsOf files ⟨[], 0⟩).2 f.path)).isEmpty
    · have hr2 : runScan docsOf files (runScan docsOf files ⟨[], 0⟩).2 =
          ({ total := 0, processed := 0, error := 0,
             skipped := files.length - (files.filter
               (fun f => !knownPath (runScan docsOf files ⟨[], 0⟩).2 f.path)).length,
             completed := true }, (runScan docsOf files ⟨[], 0⟩).2) := by
        exact runScan_eq_pos docsOf files _ hempty2
      have hzero : (files.filter
          (fun f => !knownPath (runScan docsOf files ⟨[], 0⟩).2 f.path)).length = 0 := by
        rw [List.isEmpty_iff.mp hempty2]
        rfl
      refine ⟨by rw [hr2], by rw [hr2], by rw [hr2], ?_, by rw [hr2], fun _ => by rw [hr2]⟩
      rw [hr2]
      show files.length - _ = files.length
      omega
    · have hsub : ∀ f ∈ files.filter
          (fun f => !knownPath (runScan docsOf files ⟨[], 0⟩).2 f.path),
          knownHash (runScan docsOf files ⟨[], 0⟩).2 f.tenantCode f.hash = true :=
        fun f hf => hknown f (List.mem_of_mem_filter hf)
      have hr2 : runScan docsOf files (runScan docsOf files ⟨[], 0⟩).2 =
          ({ total := (files.filter
               (fun f => !knownPath (runScan docsOf files ⟨[], 0⟩).2 f.path)).length,
             processed := 0, error := 0,
             skipped := (files.length - (files.filter
               (fun f => !knownPath (runScan docsOf files ⟨[], 0⟩).2 f.path)).length) +
               (files.filter
               (fun f => !knownPath (runScan docsOf files ⟨[], 0⟩).2 f.path)).length,
             completed := true }, (runScan docsOf files ⟨[], 0⟩).2) := by
        rw [runScan_eq_neg docsOf files _ hempty2]
        exact fold_all_known docsOf _ _ _ hsub
      have hlenle : (files.filter
          (fun f => !knownPath (runScan docsOf files ⟨[], 0⟩).2 f.path)).length ≤
          files.length := List.length_filter_le _ _
      refine ⟨by rw [hr2], by rw [hr2], by rw [hr2], ?_, by rw [hr2], ?_⟩
      · rw [hr2]
        show (files.length - _) + _ = files.length
        omega
      · intro hnd
        exfalso
        apply hempty2
        have hpaths : ∀ f ∈ files,
            knownPath (runScan docsOf files ⟨[], 0⟩).2 f.path = true := by
          intro f hf
          rw [hr1]
          exact fold_knows_all_paths docsOf files _ (fun g _ => by rfl) hnd f hf
        have hnil : files.filter
            (fun f => !knownPath (runScan docsOf files ⟨[], 0⟩).2 f.path) = [] :=
          List.filter_eq_nil_iff.mpr (fun f hf => by simp [hpaths f hf])
        rw [hnil]
        rfl

/-- Witness for `second_scan_all_skipped`: a concrete one-file source set —
the second run skips the file and reports `total = 0`. -/
theorem second_scan_all_skipped_witness :
    (runScan (fun _ => 1) [⟨"q", "g", "t"⟩]
        (runScan (fun _ => 1) [⟨"q", "g", "t"⟩] ⟨[], 0⟩).2).1.skipped = 1 ∧
    (runScan (fun _ => 1) [⟨"q", "g", "t"⟩]
        (runScan (fun _ => 1) [⟨"q", "g", "t"⟩] ⟨[], 0⟩).2).1.total = 0 := by
  constructor
  · exact (second_scan_all_skipped (fun _ => 1) [⟨"q", "g", "t"⟩]).2.2.2.1
  · exact (second_scan_all_skipped (fun _ => 1) [⟨"q", "g", "t"⟩]).2.2.2.2.2 (by decide)

/-! ## Streaming encryption (`encrypt_stream_to_blob` /
`decrypt_stream_from_blob`, dms/encryption.py 148-236)

Byte streams are lists of byte values.  The AES-GCM primitive of the
`cryptography` package enters the model as a parameter `A : AEAD` together
with the laws it guarantees (decryption inverts encryption; the ciphertext
is the plaintext plus a 16-byte tag); the per-chunk random nonces are a
stream `nonces : Nat → List Nat`.  Both loops are written with an explicit
step budget (`fuel`), always called with the input length — an upper bound
on the iteration count, since every pass consumes at least one input byte —
so that they stay structurally recursive and computable. -/

def CHUNK_SIZE : Nat := 64 * 1024

def NONCE_SIZE : Nat := 12

structure AEAD where
  enc : List Nat → List Nat → List Nat
  dec : List Nat → List Nat → Option (List Nat)

/-- `struct.pack('>I', n)`: four big-endian bytes. -/
def be4 (n : Nat) : List Nat :=
  [n / 2 ^ 24 % 256, n / 2 ^ 16 % 256, n / 2 ^ 8 % 256, n % 256]

/-- `struct.unpack('>I', bs)[0]` on a 4-byte list. -/
def parseBE4 (bs : List Nat) : Nat :=
  match bs with
  | [b0, b1, b2, b3] => ((b0 * 256 + b1) * 256 + b2) * 256 + b3
  | _ => 0

/-- The `while True` loop of `encrypt_stream_to_blob` (encryption.py
170-190): read a chunk (stop on empty read), encrypt it under the next
nonce, emit `[4-byte big-endian ciphertext length][nonce][ciphertext]`,
and accumulate `total_read` and `total_written`.  Returns
`(total_read, total_written, output)`. -/
def encLoopF (A : AEAD) : Nat → (Nat → List Nat) → List Nat → Nat × Nat × List Nat
  | 0, _, _ => (0, 0, [])
  | fuel + 1, nonces, x =>
    if x = [] then (0, 0, [])
    else
      let c := x.take CHUNK_SIZE
      let ct := A.enc (nonces 0) c
      let rest := encLoopF A fuel (fun i => nonces (i + 1)) (x.drop CHUNK_SIZE)
      (c.length + rest.1, (4 + NONCE_SIZE + ct.length) + rest.2.1,
       (be4 ct.length ++ nonces 0 ++ ct) ++ rest.2.2)

/-- `encrypt_stream_to_blob` (encryption.py 148-192) on in-memory bytes:
`(total_read, total_written, encrypted output)`. -/
def encrypt_stream_to_blob (A : AEAD) (nonces : Nat → List Nat) (x : List Nat) :
    Nat × Nat × List Nat :=
  encLoopF A x.length nonces x

/-- The `while True` loop of `decrypt_stream_from_blob` (encryption.py
213-236): fewer than 4 bytes of length prefix end the loop normally
(`break`, encryption.py 216-217); a short nonce or a short ciphertext
raise the truncation `ValueError`s of lines 224 and 229; an
authentication failure surfaces as the library's `InvalidTag`.  Returns
`(plaintext, total_written)` on success. -/
def decLoopF (A : AEAD) : Nat → List Nat → Except String (List Nat × Nat)
  | 0, _ => Except.ok ([], 0)
  | fuel + 1, input =>
    if input.length < 4 then Except.ok ([], 0)
    else if ((input.drop 4).take NONCE_SIZE).length < NONCE_SIZE then
      Except.error "Truncated stream: missing nonce"
    else if (((input.drop 4).drop NONCE_SIZE).take (parseBE4 (input.take 4))).length <
        parseBE4 (input.take 4) then
      Except.error "Truncated stream: incomplete encrypted chunk"
    else
      match A.dec ((input.drop 4).take NONCE_SIZE)
          (((input.drop 4).drop NONCE_SIZE).take (parseBE4 (input.take 4))) with
      | none => Except.error "InvalidTag"
      | some pt =>
        match decLoopF A fuel (((input.drop 4).drop NONCE_SIZE).drop
            (parseBE4 (input.take 4))) with
        | Except.ok (out, w) => Except.ok (pt ++ out, w + pt.length)
        | Except.error e => Except.error e


/-- `decrypt_stream_from_blob` (encryption.py 195-236) on in-memory bytes. -/
def decrypt_stream_from_blob (A : AEAD) (input : List Nat) :
    Except String (List Nat × Nat) :=
  decLoopF A input.length input

theorem be4_length (n : Nat) : (be4 n).length = 4 := rfl

theorem parseBE4_be4 (n : Nat) (h : n < 2 ^ 32) : parseBE4 (be4 n) = n := by
  show ((n / 2 ^ 24 % 256 * 256 + n / 2 ^ 16 % 256) * 256 + n / 2 ^ 8 % 256) * 256 +
    n % 256 = n
  omega

/-- The encryption loop does not depend on the fuel, as long as the fuel
dominates the input length (every pass consumes at least one byte). -/
theorem encLoopF_fuel_invariant (A : AEAD) :
    ∀ (fuel₁ fuel₂ : Nat) (nonces : Nat → List Nat) (x : List Nat),
      x.length ≤ fuel₁ → x.length ≤ fuel₂ →
      encLoopF A fuel₁ nonces x = encLoopF A fuel₂ nonces x := by
  intro fuel₁
  induction fuel₁ with
  | zero =>
    intro fuel₂ nonces x h1 _
    have hx : x = [] := List.length_eq_zero.mp (Nat.le_zero.mp h1)
    subst hx
    cases fuel₂ <;> simp [encLoopF]
  | succ n ih =>
    intro fuel₂ nonces x h1 h2
    match x with
    | [] => cases fuel₂ <;> simp [encLoopF]
    | a :: y =>
      match fuel₂ with
      | 0 => exact absurd h2 (by simp)
      | m + 1 =>
        have hd1 : (List.drop CHUNK_SIZE (a :: y)).length ≤ n := by
          rw [List.length_drop]
          have : (a :: y).length = y.length + 1 := rfl
          rw [this] at h1 ⊢
          have hc : 1 ≤ CHUNK_SIZE := by norm_num [CHUNK_SIZE]
          omega
        have hd2 : (List.drop CHUNK_SIZE (a :: y)).length ≤ m := by
          rw [List.length_drop]
          have : (a :: y).length = y.length + 1 := rfl
          rw [this] at h2 ⊢
          have hc : 1 ≤ CHUNK_SIZE := by norm_num [CHUNK_SIZE]
          omega
        unfold encLoopF
        rw [if_neg (by simp), if_neg (by simp),
          ih m (fun i => nonces (i + 1)) _ hd1 hd2]

/-- `total_bytes_read` is the plaintext length. -/
theorem encLoopF_reads_all (A : AEAD) :
    ∀ (fuel : Nat) (nonces : Nat → List Nat) (x : List Nat), x.length ≤ fuel →
      (encLoopF A fuel nonces x).1 = x.length := by
  intro fuel
  induction fuel with
  | zero =>
    intro nonces x h1
    have hx : x = [] := List.length_eq_zero.mp (Nat.le_zero.mp h1)
    subst hx
    rfl
  | succ n ih =>
    intro nonces x h1
    match x with
    | [] => rfl
    | a :: y =>
      have hd1 : (List.drop CHUNK_SIZE (a :: y)).length ≤ n := by
        rw [List.length_drop]
        have h2 : (a :: y).length = y.length + 1 := rfl
        rw [h2] at h1
        have hc : 1 ≤ CHUNK_SIZE := by norm_num [CHUNK_SIZE]
        omega
      have hr := ih (fun i => nonces (i + 1)) (List.drop CHUNK_SIZE (a :: y)) hd1
      unfold encLoopF
      rw [if_neg (by simp)]
      rcases hrec : encLoopF A n (fun i => nonces (i + 1))
        (List.drop CHUNK_SIZE (a :: y)) with ⟨r, w, out⟩
      rw [hrec] at hr
      show (List.take CHUNK_SIZE (a :: y)).length + r = (a :: y).length
      rw [List.length_take] at *
      rw [List.length_drop] at hr
      simp only at hr
      omega

/-- Decrypting the encrypted stream recovers the plaintext and reports its
length, for any fuel dominating the respective lengths. -/
theorem decLoopF_encLoopF (A : AEAD)
    (hdec : ∀ n p, A.dec n (A.enc n p) = some p)
    (hlen : ∀ n p, (A.enc n p).length = p.length + 16) :
    ∀ (efuel : Nat) (x : List Nat) (nonces : Nat → List Nat), x.length ≤ efuel →
      (∀ i, (nonces i).length = NONCE_SIZE) →
      ∀ dfuel : Nat, (encLoopF A efuel nonces x).2.2.length ≤ dfuel →
        decLoopF A dfuel (encLoopF A efuel nonces x).2.2 = Except.ok (x, x.length) := by
  intro efuel
  induction efuel with
  | zero =>
    intro x nonces h1 _ dfuel _
    have hx : x = [] := List.length_eq_zero.mp (Nat.le_zero.mp h1)
    subst hx
    cases dfuel <;> simp [encLoopF, decLoopF]
  | succ e ih =>
    intro x nonces h1 hnl dfuel hdf
    match x with
    | [] => cases dfuel <;> simp [encLoopF, decLoopF]
    | a :: y =>
      have hcons : (a :: y).length = y.length + 1 := rfl
      have hchunk : 1 ≤ CHUNK_SIZE := by norm_num [CHUNK_SIZE]
      have hd1 : (List.drop CHUNK_SIZE (a :: y)).length ≤ e := by
        rw [List.length_drop, hcons]
        rw [hcons] at h1
        omega
      have hclen : (List.take CHUNK_SIZE (a :: y)).length =
          min CHUNK_SIZE (y.length + 1) := by
        rw [List.length_take, hcons]
      have hct : (A.enc (nonces 0) (List.take CHUNK_SIZE (a :: y))).length =
          min CHUNK_SIZE (y.length + 1) + 16 := by
        rw [hlen, hclen]
      have henc : encLoopF A (e + 1) nonces (a :: y) =
          ((List.take CHUNK_SIZE (a :: y)).length +
            (encLoopF A e (fun i => nonces (i + 1)) (List.drop CHUNK_SIZE (a :: y))).1,
           (4 + NONCE_SIZE +
            (A.enc (nonces 0) (List.take CHUNK_SIZE (a :: y))).length) +
            (encLoopF A e (fun i => nonces (i + 1)) (List.drop CHUNK_SIZE (a :: y))).2.1,
           (be4 (A.enc (nonces 0) (List.take CHUNK_SIZE (a :: y))).length ++ nonces 0 ++
            A.enc (nonces 0) (List.take CHUNK_SIZE (a :: y))) ++
            (encLoopF A e (fun i => nonces (i + 1))
              (List.drop CHUNK_SIZE (a :: y))).2.2) := by
        conv_lhs => unfold encLoopF
        rw [if_neg (by simp)]
      set ct := A.enc (nonces 0) (List.take CHUNK_SIZE (a :: y)) with hctdef
      set out2 := (encLoopF A e (fun i => nonces (i + 1))
        (List.drop CHUNK_SIZE (a :: y))).2.2 with hout2
      have hL32 : ct.length < 2 ^ 32 := by
        rw [hct]
        have : min CHUNK_SIZE (y.length + 1) ≤ CHUNK_SIZE := min_le_left _ _
        norm_num [CHUNK_SIZE] at this ⊢
        omega
      have houtlen : (encLoopF A (e + 1) nonces (a :: y)).2.2.length =
          4 + NONCE_SIZE + ct.length + out2.length := by
        rw [henc]
        simp [be4, hnl 0, NONCE_SIZE]
        omega
      have hctge : 17 ≤ ct.length := by
        rw [hct]
        have : 1 ≤ min CHUNK_SIZE (y.length + 1) := by
          rw [Nat.le_min]
          omega
        omega
      match dfuel with
      | 0 =>
        exfalso
        rw [houtlen] at hdf
        omega
      | d + 1 =>
        have hout2d : out2.length ≤ d := by
          rw [houtlen] at hdf
          have : 12 ≤ NONCE_SIZE := by norm_num [NONCE_SIZE]
          omega
        rw [henc]
        show decLoopF A (d + 1) ((be4 ct.length ++ nonces 0 ++ ct) ++ out2) = _
        rw [show (be4 ct.length ++ nonces 0 ++ ct) ++ out2 =
          be4 ct.length ++ (nonces 0 ++ (ct ++ out2)) from by
            simp [List.append_assoc]]
        unfold decLoopF
        rw [List.take_left' (be4_length ct.length), List.drop_left' (be4_length ct.length),
          parseBE4_be4 ct.length hL32,
          List.take_left' (hnl 0), List.drop_left' (hnl 0),
          List.take_left' (rfl : ct.length = ct.length),
          List.drop_left' (rfl : ct.length = ct.length)]
        rw [if_neg (by
          simp only [List.length_append, be4_length]
          omega)]
        rw [if_neg (by rw [hnl 0]; omega)]
        rw [if_neg (by omega)]
        rw [hctdef, hdec (nonces 0) (List.take CHUNK_SIZE (a :: y))]
        have hih := ih (List.drop CHUNK_SIZE (a :: y)) (fun i => nonces (i + 1)) hd1
          (fun i => hnl (i + 1)) d (by rw [← hout2]; exact hout2d)
        rw [← hout2] at hih
        rw [hih]
        have hfinal : List.take CHUNK_SIZE (a :: y) ++ List.drop CHUNK_SIZE (a :: y) =
            a :: y := List.take_append_drop _ _
        have hlens : (List.drop CHUNK_SIZE (a :: y)).length +
            (List.take CHUNK_SIZE (a :: y)).length = (a :: y).length := by
          rw [List.length_drop, List.length_take, hcons]
          omega
        show Except.ok (List.take CHUNK_SIZE (a :: y) ++ List.drop CHUNK_SIZE (a :: y),
          (List.drop CHUNK_SIZE (a :: y)).length +
            (List.take CHUNK_SIZE (a :: y)).length) =
          Except.ok (a :: y, (a :: y).length)
        rw [hfinal, hlens]

/-- **C7.** Decrypting the streamed encryption of any plaintext recovers it
exactly, with `total_bytes_read` equal to the plaintext length on the
encryption side and `total_bytes_written` equal to the plaintext length on
the decryption side — for any AEAD primitive whose decryption inverts its
encryption with a 16-byte tag, and any supply of 12-byte nonces. -/
theorem stream_roundtrip (A : AEAD) (nonces : Nat → List Nat)
    (hdec : ∀ n p, A.dec n (A.enc n p) = some p)
    (hlen : ∀ n p, (A.enc n p).length = p.length + 16)
    (hnl : ∀ i, (nonces i).length = NONCE_SIZE) (x : List Nat) :
    (encrypt_stream_to_blob A nonces x).1 = x.length ∧
    decrypt_stream_from_blob A (encrypt_stream_to_blob A nonces x).2.2 =
      Except.ok (x, x.length) := by
  constructor
  · exact encLoopF_reads_all A x.length nonces x (le_refl _)
  · exact decLoopF_encLoopF A hdec hlen x.length x nonces (le_refl _) hnl _ (le_refl _)

/-- A concrete AEAD instance satisfying the laws: the ciphertext is the
plaintext followed by a 16-byte tag of zeros. -/
def toyAEAD : AEAD :=
  ⟨fun _ p => p ++ List.replicate 16 0,
   fun _ c => if 16 ≤ c.length then some (c.take (c.length - 16)) else none⟩

theorem toyAEAD_dec_enc : ∀ n p, toyAEAD.dec n (toyAEAD.enc n p) = some p := by
  intro n p
  simp only [toyAEAD]
  rw [if_pos (by simp)]
  have h : (p ++ List.replicate 16 0).length - 16 = p.length := by simp
  rw [h]
  exact congrArg some (List.take_left' rfl)

theorem toyAEAD_enc_length : ∀ n p, (toyAEAD.enc n p).length = p.length + 16 := by
  intro n p
  simp [toyAEAD]

def zeroNonce : Nat → List Nat := fun _ => List.replicate NONCE_SIZE 0

theorem zeroNonce_length : ∀ i, (zeroNonce i).length = NONCE_SIZE := by
  intro i
  simp [zeroNonce]

/-- Witness for `stream_roundtrip`: the toy AEAD instance and a concrete
3-byte plaintext. -/
theorem stream_roundtrip_witness :
    decrypt_stream_from_blob toyAEAD
      (encrypt_stream_to_blob toyAEAD zeroNonce [1, 2, 3]).2.2 =
      Except.ok ([1, 2, 3], 3) := by
  have h := (stream_roundtrip toyAEAD zeroNonce toyAEAD_dec_enc toyAEAD_enc_length
    zeroNonce_length [1, 2, 3]).2
  simpa using h

/-- Unfolding equation of one encryption pass on a non-empty input. -/
theorem encLoopF_cons (A : AEAD) (fuel : Nat) (nonces : Nat → List Nat) (a : Nat)
    (y : List Nat) :
    encLoopF A (fuel + 1) nonces (a :: y) =
      ((List.take CHUNK_SIZE (a :: y)).length +
        (encLoopF A fuel (fun i => nonces (i + 1)) (List.drop CHUNK_SIZE (a :: y))).1,
       (4 + NONCE_SIZE + (A.enc (nonces 0) (List.take CHUNK_SIZE (a :: y))).length) +
        (encLoopF A fuel (fun i => nonces (i + 1)) (List.drop CHUNK_SIZE (a :: y))).2.1,
       (be4 (A.enc (nonces 0) (List.take CHUNK_SIZE (a :: y))).length ++ nonces 0 ++
        A.enc (nonces 0) (List.take CHUNK_SIZE (a :: y))) ++
        (encLoopF A fuel (fun i => nonces (i + 1)) (List.drop CHUNK_SIZE (a :: y))).2.2) := by
  conv_lhs => unfold encLoopF
  rw [if_neg (by simp)]

/-- Per chunk, the stream grows by the chunk plus 32 framing bytes; in
closed form the output length is `n + 32 * ceil(n / CHUNK_SIZE)`. -/
theorem encLoopF_out_length (A : AEAD)
    (hlen : ∀ n p, (A.enc n p).length = p.length + 16) :
    ∀ (fuel : Nat) (nonces : Nat → List Nat) (x : List Nat), x.length ≤ fuel →
      (∀ i, (nonces i).length = NONCE_SIZE) →
      (encLoopF A fuel nonces x).2.2.length =
        x.length + 32 * ((x.length + (CHUNK_SIZE - 1)) / CHUNK_SIZE) := by
  intro fuel
  induction fuel with
  | zero =>
    intro nonces x h1 _
    have hx : x = [] := List.length_eq_zero.mp (Nat.le_zero.mp h1)
    subst hx
    show (0 : Nat) = 0 + 32 * ((0 + (CHUNK_SIZE - 1)) / CHUNK_SIZE)
    norm_num [CHUNK_SIZE]
  | succ n ih =>
    intro nonces x h1 hnl
    match x with
    | [] =>
      show (0 : Nat) = 0 + 32 * ((0 + (CHUNK_SIZE - 1)) / CHUNK_SIZE)
      norm_num [CHUNK_SIZE]
    | a :: y =>
      have hcons : (a :: y).length = y.length + 1 := rfl
      have hd1 : (List.drop CHUNK_SIZE (a :: y)).length ≤ n := by
        rw [List.length_drop, hcons]
        rw [hcons] at h1
        have hc : 1 ≤ CHUNK_SIZE := by norm_num [CHUNK_SIZE]
        omega
      have hr := ih (fun i => nonces (i + 1)) (List.drop CHUNK_SIZE (a :: y)) hd1
        (fun i => hnl (i + 1))
      rw [encLoopF_cons]
      show ((be4 (A.enc (nonces 0) (List.take CHUNK_SIZE (a :: y))).length ++ nonces 0 ++
        A.enc (nonces 0) (List.take CHUNK_SIZE (a :: y))) ++
        (encLoopF A n (fun i => nonces (i + 1))
          (List.drop CHUNK_SIZE (a :: y))).2.2).length = _
      rw [List.length_append, List.length_append, List.length_append, be4_length,
        hnl 0, hlen, hr, List.length_take, List.length_drop, hcons]
      show 4 + NONCE_SIZE + (min CHUNK_SIZE (y.length + 1) + 16) +
        ((y.length + 1 - CHUNK_SIZE) +
          32 * ((y.length + 1 - CHUNK_SIZE + (CHUNK_SIZE - 1)) / CHUNK_SIZE)) =
        (y.length + 1) + 32 * ((y.length + 1 + (CHUNK_SIZE - 1)) / CHUNK_SIZE)
      show 4 + 12 + (min 65536 (y.length + 1) + 16) +
        ((y.length + 1 - 65536) + 32 * ((y.length + 1 - 65536 + (65536 - 1)) / 65536)) =
        (y.length + 1) + 32 * ((y.length + 1 + (65536 - 1)) / 65536)
      omega

/-- **C10.** Size law of the streaming format: the encrypted output is the
plaintext length plus 32 bytes (4 length, 12 nonce, 16 tag) per 64KiB
chunk — `n + 32 * ceil(n / 65536)` — and an empty input produces an empty
output with zero bytes read and written. -/
theorem encrypt_output_size (A : AEAD) (nonces : Nat → List Nat)
    (hlen : ∀ n p, (A.enc n p).length = p.length + 16)
    (hnl : ∀ i, (nonces i).length = NONCE_SIZE) :
    (∀ x : List Nat, (encrypt_stream_to_blob A nonces x).2.2.length =
      x.length + 32 * ((x.length + (CHUNK_SIZE - 1)) / CHUNK_SIZE)) ∧
    encrypt_stream_to_blob A nonces [] = (0, 0, []) := by
  constructor
  · intro x
    exact encLoopF_out_length A hlen x.length nonces x (le_refl _) hnl
  · rfl

/-- Witness for `encrypt_output_size`: a 3-byte plaintext encrypts to
3 + 32 = 35 bytes under the toy AEAD. -/
theorem encrypt_output_size_witness :
    (encrypt_stream_to_blob toyAEAD zeroNonce [5, 6, 7]).2.2.length = 35 := by
  have h := (encrypt_output_size toyAEAD zeroNonce toyAEAD_enc_length
    zeroNonce_length).1 [5, 6, 7]
  rw [h]
  norm_num [CHUNK_SIZE]

/-- The framed sizes of the chunks of an encrypted stream: 4 length bytes,
the nonce and the ciphertext per chunk. -/
def frameLens (A : AEAD) : Nat → (Nat → List Nat) → List Nat → List Nat
  | 0, _, _ => []
  | fuel + 1, nonces, x =>
    if x = [] then []
    else (4 + NONCE_SIZE + (A.enc (nonces 0) (x.take CHUNK_SIZE)).length) ::
      frameLens A fuel (fun i => nonces (i + 1)) (x.drop CHUNK_SIZE)

/-- Where a truncation position falls relative to the chunk framing: at a
chunk boundary, inside a 4-byte length prefix, inside a nonce, or inside a
ciphertext. -/
inductive CutKind
  | boundary
  | lenField
  | nonceField
  | ctField
deriving Repr, DecidableEq

/-- Classify a truncation position against the frame sizes. -/
def cutKind : List Nat → Nat → CutKind
  | [], _ => CutKind.boundary
  | F :: fs, t =>
    if t = 0 then CutKind.boundary
    else if t < 4 then CutKind.lenField
    else if t < 4 + NONCE_SIZE then CutKind.nonceField
    else if t < F then CutKind.ctField
    else cutKind fs (t - F)

/-- **C8 counterexample.** Truncating an encrypted stream strictly inside
the first chunk's framing — 2 bytes into the 4-byte length prefix — makes
`decrypt_stream_from_blob` return normally (the short length read hits the
`break` of encryption.py 216-217), not fail with a framing error. -/
theorem decrypt_truncation_counterexample :
    0 < 2 ∧ 2 < (encrypt_stream_to_blob toyAEAD zeroNonce [7]).2.2.length ∧
    decrypt_stream_from_blob toyAEAD
      ((encrypt_stream_to_blob toyAEAD zeroNonce [7]).2.2.take 2) =
      Except.ok ([], 0) := by
  refine ⟨by decide, by decide, by rfl⟩

/-- Unfolding equation of `frameLens` on a non-empty input. -/
theorem frameLens_cons (A : AEAD) (fuel : Nat) (nonces : Nat → List Nat) (a : Nat)
    (y : List Nat) :
    frameLens A (fuel + 1) nonces (a :: y) =
      (4 + NONCE_SIZE + (A.enc (nonces 0) ((a :: y).take CHUNK_SIZE)).length) ::
        frameLens A fuel (fun i => nonces (i + 1)) ((a :: y).drop CHUNK_SIZE) := by
  conv_lhs => unfold frameLens
  rw [if_neg (by simp)]

theorem cutKind_cons (F : Nat) (fs : List Nat) (t : Nat) :
    cutKind (F :: fs) t =
      if t = 0 then CutKind.boundary
      else if t < 4 then CutKind.lenField
      else if t < 4 + NONCE_SIZE then CutKind.nonceField
      else if t < F then CutKind.ctField
      else cutKind fs (t - F) := rfl

/-- Behaviour of the decryption loop on a truncated stream, classified by
where the cut falls: a cut inside a nonce or a ciphertext raises the
respective truncation `ValueError`; a cut inside a 4-byte length prefix —
like a cut at a chunk boundary — ends the loop normally. -/
theorem decLoopF_truncated (A : AEAD)
    (hdec : ∀ n p, A.dec n (A.enc n p) = some p)
    (hlen : ∀ n p, (A.enc n p).length = p.length + 16) :
    ∀ (efuel : Nat) (x : List Nat) (nonces : Nat → List Nat), x.length ≤ efuel →
      (∀ i, (nonces i).length = NONCE_SIZE) →
      ∀ t : Nat, t ≤ (encLoopF A efuel nonces x).2.2.length →
      ∀ dfuel : Nat, t ≤ dfuel →
      (match cutKind (frameLens A efuel nonces x) t with
       | CutKind.boundary =>
         ∃ w, decLoopF A dfuel ((encLoopF A efuel nonces x).2.2.take t) = Except.ok w
       | CutKind.lenField =>
         ∃ w, decLoopF A dfuel ((encLoopF A efuel nonces x).2.2.take t) = Except.ok w
       | CutKind.nonceField =>
         decLoopF A dfuel ((encLoopF A efuel nonces x).2.2.take t) =
           Except.error "Truncated stream: missing nonce"
       | CutKind.ctField =>
         decLoopF A dfuel ((encLoopF A efuel nonces x).2.2.take t) =
           Except.error "Truncated stream: incomplete encrypted chunk") := by
  intro efuel
  induction efuel with
  | zero =>
    intro x nonces h1 hnl t ht dfuel hdt
    have hx : x = [] := List.length_eq_zero.mp (Nat.le_zero.mp h1)
    subst hx
    have ht0 : t = 0 := Nat.le_zero.mp (by simpa [encLoopF] using ht)
    subst ht0
    exact ⟨([], 0), by cases dfuel <;> simp [encLoopF, decLoopF]⟩
  | succ e ih =>
    intro x nonces h1 hnl t ht dfuel hdt
    match x with
    | [] =>
      have ht0 : t = 0 := Nat.le_zero.mp (by simpa [encLoopF] using ht)
      subst ht0
      exact ⟨([], 0), by cases dfuel <;> simp [encLoopF, decLoopF]⟩
    | a :: y =>
      have hN : NONCE_SIZE = 12 := rfl
      have hcons : (a :: y).length = y.length + 1 := rfl
      have hchunk : 1 ≤ CHUNK_SIZE := by norm_num [CHUNK_SIZE]
      have hd1 : (List.drop CHUNK_SIZE (a :: y)).length ≤ e := by
        rw [List.length_drop, hcons]
        rw [hcons] at h1
        omega
      set ct := A.enc (nonces 0) (List.take CHUNK_SIZE (a :: y)) with hctdef
      set out2 := (encLoopF A e (fun i => nonces (i + 1))
        (List.drop CHUNK_SIZE (a :: y))).2.2 with hout2
      have hctlen : ct.length = (List.take CHUNK_SIZE (a :: y)).length + 16 := by
        rw [hctdef, hlen]
      have hctge : 17 ≤ ct.length := by
        rw [hctlen, List.length_take, hcons]
        have : 1 ≤ min CHUNK_SIZE (y.length + 1) := by
          rw [Nat.le_min]
          omega
        omega
      have hL32 : ct.length < 2 ^ 32 := by
        rw [hctlen, List.length_take]
        have : min CHUNK_SIZE ((a :: y).length) ≤ CHUNK_SIZE := min_le_left _ _
        norm_num [CHUNK_SIZE] at this ⊢
        omega
      have hout : (encLoopF A (e + 1) nonces (a :: y)).2.2 =
          be4 ct.length ++ (nonces 0 ++ (ct ++ out2)) := by
        rw [encLoopF_cons]
        simp [List.append_assoc]
      have hframes : frameLens A (e + 1) nonces (a :: y) =
          (4 + NONCE_SIZE + ct.length) ::
            frameLens A e (fun i => nonces (i + 1)) (List.drop CHUNK_SIZE (a :: y)) := by
        rw [frameLens_cons]
      rw [hout, hframes]
      rw [hout] at ht
      have htlen : t ≤ 4 + (12 + (ct.length + out2.length)) := by
        simpa [List.length_append, be4_length, hnl 0, hN] using ht
      by_cases ht0 : t = 0
      · subst ht0
        have hck : cutKind ((4 + NONCE_SIZE + ct.length) ::
            frameLens A e (fun i => nonces (i + 1)) (List.drop CHUNK_SIZE (a :: y))) 0 =
            CutKind.boundary := by
          rw [cutKind_cons, if_pos rfl]
        rw [hck]
        exact ⟨([], 0), by cases dfuel <;> simp [decLoopF]⟩
      · by_cases ht4 : t < 4
        · have hck : cutKind ((4 + NONCE_SIZE + ct.length) ::
              frameLens A e (fun i => nonces (i + 1)) (List.drop CHUNK_SIZE (a :: y))) t =
              CutKind.lenField := by
            rw [cutKind_cons, if_neg ht0, if_pos ht4]
          rw [hck]
          have htk : (be4 ct.length ++ (nonces 0 ++ (ct ++ out2))).take t =
              (be4 ct.length).take t :=
            List.take_append_of_le_length (by rw [be4_length]; omega)
          have htkl : ((be4 ct.length).take t).length = t := by
            rw [List.length_take, be4_length]
            omega
          match dfuel with
          | 0 => omega
          | d + 1 =>
            refine ⟨([], 0), ?_⟩
            rw [htk]
            unfold decLoopF
            rw [if_pos (by rw [htkl]; exact ht4)]
        · by_cases ht16 : t < 4 + NONCE_SIZE
          · have hck : cutKind ((4 + NONCE_SIZE + ct.length) ::
                frameLens A e (fun i => nonces (i + 1)) (List.drop CHUNK_SIZE (a :: y))) t =
                CutKind.nonceField := by
              rw [cutKind_cons, if_neg ht0, if_neg ht4, if_pos ht16]
            rw [hck]
            rw [hN] at ht16
            have h4t : 4 ≤ t := by omega
            have htk : (be4 ct.length ++ (nonces 0 ++ (ct ++ out2))).take t =
                be4 ct.length ++ (nonces 0 ++ (ct ++ out2)).take (t - 4) := by
              rw [List.take_append_eq_append_take,
                List.take_of_length_le (by rw [be4_length]; omega), be4_length]
            have hRlen : (nonces 0 ++ (ct ++ out2)).length =
                12 + (ct.length + out2.length) := by
              simp [hnl 0, hN]
            have hSlen : ((nonces 0 ++ (ct ++ out2)).take (t - 4)).length = t - 4 := by
              rw [List.length_take]
              omega
            match dfuel with
            | 0 => omega
            | d + 1 =>
              rw [htk]
              unfold decLoopF
              rw [List.drop_left' (be4_length ct.length)]
              rw [if_neg (by
                simp only [List.length_append, be4_length, hSlen]
                omega)]
              rw [if_pos (by
                rw [List.take_of_length_le (by rw [hSlen, hN]; omega), hSlen, hN]
                omega)]
          · by_cases htF : t < 4 + NONCE_SIZE + ct.length
            · have hck : cutKind ((4 + NONCE_SIZE + ct.length) ::
                  frameLens A e (fun i => nonces (i + 1))
                    (List.drop CHUNK_SIZE (a :: y))) t = CutKind.ctField := by
                rw [cutKind_cons, if_neg ht0, if_neg ht4, if_neg ht16, if_pos htF]
              rw [hck]
              rw [hN] at ht16 htF
              have h16t : 16 ≤ t := by omega
              have htmL : t - 16 < ct.length := by omega
              have htk : (be4 ct.length ++ (nonces 0 ++ (ct ++ out2))).take t =
                  be4 ct.length ++ (nonces 0 ++ ct.take (t - 16)) := by
                rw [List.take_append_eq_append_take,
                  List.take_of_length_le (by rw [be4_length]; omega), be4_length,
                  List.take_append_eq_append_take,
                  List.take_of_length_le (by rw [hnl 0, hN]; omega), hnl 0, hN,
                  List.take_append_of_le_length (by omega)]
                have harith : t - 4 - 12 = t - 16 := by omega
                rw [harith]
              have hctt : (ct.take (t - 16)).length = t - 16 := by
                rw [List.length_take]
                omega
              match dfuel with
              | 0 => omega
              | d + 1 =>
                rw [htk]
                unfold decLoopF
                rw [List.take_left' (be4_length ct.length),
                  List.drop_left' (be4_length ct.length),
                  parseBE4_be4 ct.length hL32,
                  List.take_left' (hnl 0), List.drop_left' (hnl 0)]
                rw [if_neg (by
                  simp only [List.length_append, be4_length, hnl 0, hctt, hN]
                  omega)]
                rw [if_neg (by rw [hnl 0]; omega)]
                rw [if_pos (by
                  rw [List.take_of_length_le (by rw [hctt]; omega), hctt]
                  omega)]
            · have hck : cutKind ((4 + NONCE_SIZE + ct.length) ::
                  frameLens A e (fun i => nonces (i + 1))
                    (List.drop CHUNK_SIZE (a :: y))) t =
                  cutKind (frameLens A e (fun i => nonces (i + 1))
                    (List.drop CHUNK_SIZE (a :: y))) (t - (4 + NONCE_SIZE + ct.length)) := by
                rw [cutKind_cons, if_neg ht0, if_neg ht4, if_neg ht16, if_neg htF]
              rw [hck]
              rw [hN] at ht16 htF
              have hFt : 16 + ct.length ≤ t := by omega
              have htk : (be4 ct.length ++ (nonces 0 ++ (ct ++ out2))).take t =
                  be4 ct.length ++ (nonces 0 ++ (ct ++ out2.take (t - (16 + ct.length)))) := by
                rw [List.take_append_eq_append_take,
                  List.take_of_length_le (by rw [be4_length]; omega), be4_length,
                  List.take_append_eq_append_take,
                  List.take_of_length_le (by rw [hnl 0, hN]; omega), hnl 0, hN,
                  List.take_append_eq_append_take,
                  List.take_of_length_le (by omega)]
                have harith : t - 4 - 12 - ct.length = t - (16 + ct.length) := by omega
                rw [harith]
              have hsub : t - (4 + NONCE_SIZE + ct.length) = t - (16 + ct.length) := by
                rw [hN]
              rw [hsub, htk]
              have htrec : t - (16 + ct.length) ≤ out2.length := by omega
              match dfuel with
              | 0 => omega
              | d + 1 =>
                have hdrec : t - (16 + ct.length) ≤ d := by omega
                have hih := ih (List.drop CHUNK_SIZE (a :: y)) (fun i => nonces (i + 1))
                  hd1 (fun i => hnl (i + 1)) (t - (16 + ct.length)) (by rw [← hout2]; exact htrec)
                  d hdrec
                rw [← hout2] at hih
                unfold decLoopF
                rw [List.take_left' (be4_length ct.length),
                  List.drop_left' (be4_length ct.length),
                  parseBE4_be4 ct.length hL32,
                  List.take_left' (hnl 0), List.drop_left' (hnl 0),
                  List.take_left' (rfl : ct.length = ct.length),
                  List.drop_left' (rfl : ct.length = ct.length)]
                rw [if_neg (by
                  simp only [List.length_append, be4_length, hnl 0, hN, List.length_take]
                  omega)]
                rw [if_neg (by rw [hnl 0]; omega)]
                rw [if_neg (by omega)]
                rw [hctdef, hdec (nonces 0) (List.take CHUNK_SIZE (a :: y))]
                rcases hkind : cutKind (frameLens A e (fun i => nonces (i + 1))
                    (List.drop CHUNK_SIZE (a :: y))) (t - (16 + ct.length)) with _ | _ | _ | _
                · rw [hkind] at hih
                  rcases hih with ⟨w, hw⟩
                  obtain ⟨w1, w2⟩ := w
                  rw [← hctdef]
                  refine ⟨(List.take CHUNK_SIZE (a :: y) ++ w1,
                    w2 + (List.take CHUNK_SIZE (a :: y)).length), ?_⟩
                  rw [hw]
                · rw [hkind] at hih
                  rcases hih with ⟨w, hw⟩
                  obtain ⟨w1, w2⟩ := w
                  rw [← hctdef]
                  refine ⟨(List.take CHUNK_SIZE (a :: y) ++ w1,
                    w2 + (List.take CHUNK_SIZE (a :: y)).length), ?_⟩
                  rw [hw]
                · rw [hkind] at hih
                  rw [← hctdef]
                  rw [hih]
                · rw [hkind] at hih
                  rw [← hctdef]
                  rw [hih]

/-- **C8 (amended).** For a truncation strictly inside a chunk's framing:
a cut inside the 12-byte nonce region fails with the framing error
`"Truncated stream: missing nonce"`, a cut inside the ciphertext region
fails with `"Truncated stream: incomplete encrypted chunk"`, but a cut
inside the 4-byte length prefix makes `decrypt_stream_from_blob` return
normally (the short length read is treated as end of stream by the `break`
of encryption.py 216-217) — not every interior truncation raises a framing
error. -/
theorem decrypt_truncation_behavior (A : AEAD) (nonces : Nat → List Nat)
    (hdec : ∀ n p, A.dec n (A.enc n p) = some p)
    (hlen : ∀ n p, (A.enc n p).length = p.length + 16)
    (hnl : ∀ i, (nonces i).length = NONCE_SIZE) (x : List Nat) (t : Nat)
    (ht : t ≤ (encrypt_stream_to_blob A nonces x).2.2.length) :
    (cutKind (frameLens A x.length nonces x) t = CutKind.nonceField →
      decrypt_stream_from_blob A ((encrypt_stream_to_blob A nonces x).2.2.take t) =
        Except.error "Truncated stream: missing nonce") ∧
    (cutKind (frameLens A x.length nonces x) t = CutKind.ctField →
      decrypt_stream_from_blob A ((encrypt_stream_to_blob A nonces x).2.2.take t) =
        Except.error "Truncated stream: incomplete encrypted chunk") ∧
    (cutKind (frameLens A x.length nonces x) t = CutKind.lenField →
      ∃ w, decrypt_stream_from_blob A ((encrypt_stream_to_blob A nonces x).2.2.take t) =
        Except.ok w) := by
  have hdt : t ≤ ((encrypt_stream_to_blob A nonces x).2.2.take t).length := by
    rw [List.length_take]
    omega
  have h := decLoopF_truncated A hdec hlen x.length x nonces (le_refl _) hnl t ht
    ((encrypt_stream_to_blob A nonces x).2.2.take t).length hdt
  refine ⟨fun hk => ?_, fun hk => ?_, fun hk => ?_⟩ <;> rw [hk] at h <;> exact h

/-- Witness for `decrypt_truncation_behavior`: cutting the toy stream of a
1-byte plaintext 5 bytes in (inside the nonce) yields the missing-nonce
framing error. -/
theorem decrypt_truncation_behavior_witness :
    decrypt_stream_from_blob toyAEAD
      ((encrypt_stream_to_blob toyAEAD zeroNonce [7]).2.2.take 5) =
      Except.error "Truncated stream: missing nonce" := by
  exact (decrypt_truncation_behavior toyAEAD zeroNonce toyAEAD_dec_enc
    toyAEAD_enc_length zeroNonce_length [7] 5 (by decide)).1 (by decide)

end DMS
